import Mathlib

/-!
Verification of the glycin host library against its natural-language
specification.  The definitions below are shallow embeddings of the Rust
sources of the repository (file names given with each definition); machine
integers are modelled as `Nat` with explicit bounds or `% 2^w` where
overflow matters, fallible code returns `Option`/`Except`.
-/

set_option maxHeartbeats 1000000

namespace Glycin

/-- Numeric bound of `u32` values. -/
def u32Max : ℕ := 4294967295

/-- Numeric bound of `u64` values. -/
def u64Max : ℕ := 18446744073709551615

/-- Numeric bound of `usize` values (the hosts are 64-bit). -/
def usizeMax : ℕ := 18446744073709551615

/-- The 23 pixel memory formats, from
`src/glycin-common/src/memory_format.rs`, `enum MemoryFormat`. -/
inductive MemoryFormat
  | B8g8r8a8Premultiplied
  | A8r8g8b8Premultiplied
  | R8g8b8a8Premultiplied
  | B8g8r8a8
  | A8r8g8b8
  | R8g8b8a8
  | A8b8g8r8
  | R8g8b8
  | B8g8r8
  | R16g16b16
  | R16g16b16a16Premultiplied
  | R16g16b16a16
  | R16g16b16Float
  | R16g16b16a16Float
  | R32g32b32Float
  | R32g32b32a32FloatPremultiplied
  | R32g32b32a32Float
  | G8a8Premultiplied
  | G8a8
  | G8
  | G16a16Premultiplied
  | G16a16
  | G16
  deriving DecidableEq, Repr, Fintype

namespace MemoryFormat

/-- Channel value types, from `memory_format.rs`, `enum ChannelType`. -/
inductive ChannelType
  | U8
  | U16
  | F16
  | F32
  deriving DecidableEq, Repr

/-- Byte size of a channel type, `ChannelType::size` in `memory_format.rs`. -/
def ChannelType.size : ChannelType → ℕ
  | .U8 => 1
  | .U16 => 2
  | .F16 => 2
  | .F32 => 4

/-- Bytes per pixel, `MemoryFormat::n_bytes` in `memory_format.rs`
(the `MemoryFormatBytes` enum collapsed to its numeric value). -/
def nBytes : MemoryFormat → ℕ
  | .B8g8r8a8Premultiplied => 4
  | .A8r8g8b8Premultiplied => 4
  | .R8g8b8a8Premultiplied => 4
  | .B8g8r8a8 => 4
  | .A8r8g8b8 => 4
  | .R8g8b8a8 => 4
  | .A8b8g8r8 => 4
  | .R8g8b8 => 3
  | .B8g8r8 => 3
  | .R16g16b16 => 6
  | .R16g16b16a16Premultiplied => 8
  | .R16g16b16a16 => 8
  | .R16g16b16Float => 6
  | .R16g16b16a16Float => 8
  | .R32g32b32Float => 12
  | .R32g32b32a32FloatPremultiplied => 16
  | .R32g32b32a32Float => 16
  | .G8a8Premultiplied => 2
  | .G8a8 => 2
  | .G8 => 1
  | .G16a16Premultiplied => 4
  | .G16a16 => 4
  | .G16 => 2

/-- Number of channels, `MemoryFormat::n_channels` in `memory_format.rs`. -/
def nChannels : MemoryFormat → ℕ
  | .B8g8r8a8Premultiplied => 4
  | .A8r8g8b8Premultiplied => 4
  | .R8g8b8a8Premultiplied => 4
  | .B8g8r8a8 => 4
  | .A8r8g8b8 => 4
  | .R8g8b8a8 => 4
  | .A8b8g8r8 => 4
  | .R16g16b16a16Premultiplied => 4
  | .R16g16b16a16 => 4
  | .R16g16b16a16Float => 4
  | .R32g32b32a32FloatPremultiplied => 4
  | .R32g32b32a32Float => 4
  | .R8g8b8 => 3
  | .B8g8r8 => 3
  | .R16g16b16 => 3
  | .R16g16b16Float => 3
  | .R32g32b32Float => 3
  | .G8a8Premultiplied => 2
  | .G8a8 => 2
  | .G16a16Premultiplied => 2
  | .G16a16 => 2
  | .G8 => 1
  | .G16 => 1

/-- Channel type of a format, `MemoryFormat::channel_type` in
`memory_format.rs`. -/
def channelType : MemoryFormat → ChannelType
  | .B8g8r8a8Premultiplied => .U8
  | .A8r8g8b8Premultiplied => .U8
  | .R8g8b8a8Premultiplied => .U8
  | .B8g8r8a8 => .U8
  | .A8r8g8b8 => .U8
  | .R8g8b8a8 => .U8
  | .A8b8g8r8 => .U8
  | .R8g8b8 => .U8
  | .B8g8r8 => .U8
  | .G8a8Premultiplied => .U8
  | .G8a8 => .U8
  | .G8 => .U8
  | .R16g16b16 => .U16
  | .R16g16b16a16Premultiplied => .U16
  | .R16g16b16a16 => .U16
  | .G16a16Premultiplied => .U16
  | .G16a16 => .U16
  | .G16 => .U16
  | .R16g16b16Float => .F16
  | .R16g16b16a16Float => .F16
  | .R32g32b32Float => .F32
  | .R32g32b32a32FloatPremultiplied => .F32
  | .R32g32b32a32Float => .F32

/-- Alpha-channel presence, `MemoryFormat::has_alpha` in `memory_format.rs`. -/
def hasAlpha : MemoryFormat → Bool
  | .B8g8r8a8Premultiplied => true
  | .A8r8g8b8Premultiplied => true
  | .R8g8b8a8Premultiplied => true
  | .B8g8r8a8 => true
  | .A8r8g8b8 => true
  | .R8g8b8a8 => true
  | .A8b8g8r8 => true
  | .R16g16b16a16Premultiplied => true
  | .R32g32b32a32FloatPremultiplied => true
  | .R32g32b32a32Float => true
  | .G8a8Premultiplied => true
  | .G8a8 => true
  | .R16g16b16a16 => true
  | .R16g16b16a16Float => true
  | .G16a16Premultiplied => true
  | .G16a16 => true
  | .R8g8b8 => false
  | .B8g8r8 => false
  | .R16g16b16 => false
  | .R16g16b16Float => false
  | .R32g32b32Float => false
  | .G8 => false
  | .G16 => false

/-- Premultiplication flag, `MemoryFormat::is_premultiplied` in
`memory_format.rs`. -/
def isPremultiplied : MemoryFormat → Bool
  | .B8g8r8a8Premultiplied => true
  | .A8r8g8b8Premultiplied => true
  | .R8g8b8a8Premultiplied => true
  | .R16g16b16a16Premultiplied => true
  | .R32g32b32a32FloatPremultiplied => true
  | .G8a8Premultiplied => true
  | .G16a16Premultiplied => true
  | _ => false

end MemoryFormat

/-! ### SafeMath, from `src/glycin-utils/src/safe_math.rs`

The trait `SafeMath` has three implementations (`usize`, `u32`, `u64`);
each is embedded as a namespace of checked operations returning `Option`
(`None` models `Err(DimensionTooLargerError)`). -/

namespace SafeMath

namespace U32

/-- `impl SafeMath for u32`, `fn smul`: `checked_mul`. -/
def smul (a b : ℕ) : Option ℕ :=
  if a * b ≤ u32Max then some (a * b) else none

/-- `impl SafeMath for u32`, `fn sadd`: `checked_add`. -/
def sadd (a b : ℕ) : Option ℕ :=
  if a + b ≤ u32Max then some (a + b) else none

/-- `impl SafeMath for u32`, `fn srem`: the source body is
`self.checked_add(rhs).ok_or(DimensionTooLargerError)`. -/
def srem (a b : ℕ) : Option ℕ :=
  if a + b ≤ u32Max then some (a + b) else none

end U32

namespace U64

/-- `impl SafeMath for u64`, `fn smul`: `checked_mul`. -/
def smul (a b : ℕ) : Option ℕ :=
  if a * b ≤ u64Max then some (a * b) else none

/-- `impl SafeMath for u64`, `fn sadd`: `checked_add`. -/
def sadd (a b : ℕ) : Option ℕ :=
  if a + b ≤ u64Max then some (a + b) else none

/-- `impl SafeMath for u64`, `fn srem`: the source body is
`self.checked_add(rhs).ok_or(DimensionTooLargerError)`. -/
def srem (a b : ℕ) : Option ℕ :=
  if a + b ≤ u64Max then some (a + b) else none

end U64

namespace Usize

/-- `impl SafeMath for usize`, `fn smul`: `checked_mul`. -/
def smul (a b : ℕ) : Option ℕ :=
  if a * b ≤ usizeMax then some (a * b) else none

/-- `impl SafeMath for usize`, `fn sadd`: `checked_add`. -/
def sadd (a b : ℕ) : Option ℕ :=
  if a + b ≤ usizeMax then some (a + b) else none

/-- `impl SafeMath for usize`, `fn srem`: `checked_rem`, `None` iff the
divisor is zero (`usize` is the only implementation computing a
remainder). -/
def srem (a b : ℕ) : Option ℕ :=
  if b = 0 then none else some (a % b)

end Usize

end SafeMath

/-! ### Sandbox memory limit, from `src/glycin/src/sandbox.rs` -/

namespace Sandbox

/-- `Sandbox::calculate_memory_limit` in `sandbox.rs`: cap the available
memory at 20 GiB, keep 200 MiB free (saturating), allow 80 % of the rest.
The final source expression is `(mem_considered as f64 * 0.8) as rlim_t`:
for every `mem_considered ≤ 20 GiB < 2^53` the `f64` product
`mem_considered * 0.8` is within a relative error of a few `2^-53` of the
exact value, whose distance to the nearest integer is `0` or at least
`1/5`, so the truncating cast yields exactly `⌊mem_considered * 4 / 5⌋`,
embedded here as `Nat` floor division. -/
def calculateMemoryLimit (memAvailable : ℕ) : ℕ :=
  let memConsidered := min memAvailable (1024 ^ 3 * 20) - 1024 * 1024 * 200
  memConsidered * 4 / 5

/-- `Sandbox::memory_limit` in `sandbox.rs`: `mem_available` is the value
read from `/proc/meminfo` (`None` when unreadable), the default is
`(1024 as rlim_t).pow(3)` = 1 GiB. -/
def memoryLimit (memAvailable : Option ℕ) : ℕ :=
  match memAvailable with
  | some m => calculateMemoryLimit m
  | none => 1024 ^ 3

end Sandbox

/-- C4: for every available-memory value `m` (in bytes, as summed from
`MemAvailable` and `SwapFree` of `/proc/meminfo`), the sandbox memory
limit is 0.8 (= 8/10, floor) of `min m 20GiB` minus 200 MiB saturating at
zero; with `/proc/meminfo` unreadable the limit is exactly `1024³`
bytes. -/
theorem memory_limit_formula (m : ℕ) :
    Sandbox.memoryLimit (some m)
      = (min m (20 * (1024 ^ 3)) - 200 * 1024 * 1024) * 8 / 10
      ∧ Sandbox.memoryLimit none = 1024 ^ 3 := by
  refine ⟨?_, rfl⟩
  show (min m (1024 ^ 3 * 20) - 1024 * 1024 * 200) * 4 / 5 = _
  have h10 : (10 : ℕ) = 2 * 5 := rfl
  have h8 : ∀ x : ℕ, x * 8 = 2 * (x * 4) := by intro x; ring
  rw [h8, h10, Nat.mul_div_mul_left _ _ (by norm_num), Nat.mul_comm 20 (1024 ^ 3),
    Nat.mul_comm (200 * 1024) 1024]

/-- C9: in the `u32` and `u64` `SafeMath` implementations `srem` is
`checked_add`: whenever `a + b` fits the type, `a.srem(b)` returns
`a + b`; only the `usize` implementation computes the checked
remainder. -/
theorem srem_is_checked_add (a b : ℕ) (h : a + b ≤ u32Max) :
    SafeMath.U32.srem a b = some (a + b)
      ∧ SafeMath.U64.srem a b = some (a + b)
      ∧ (b ≠ 0 → SafeMath.Usize.srem a b = some (a % b)) := by
  have h64 : a + b ≤ u64Max := le_trans h (by norm_num [u32Max, u64Max])
  refine ⟨?_, ?_, ?_⟩
  · simp [SafeMath.U32.srem, h]
  · simp [SafeMath.U64.srem, h64]
  · intro hb
    simp [SafeMath.Usize.srem, hb]

/-- Witness for `srem_is_checked_add` at `a = 10`, `b = 3`:
`10.srem(3)` yields `13`, not the remainder `1`. -/
theorem srem_is_checked_add_witness :
    10 + 3 ≤ u32Max
      ∧ (SafeMath.U32.srem 10 3 = some 13
          ∧ SafeMath.U64.srem 10 3 = some 13
          ∧ (3 ≠ 0 → SafeMath.Usize.srem 10 3 = some (10 % 3))) :=
  ⟨by decide, srem_is_checked_add 10 3 (by decide)⟩

/-! ### Memory format selection, from
`src/glycin-common/src/memory_format_selection.rs`

`MemoryFormatSelection` is a set of 23 bitflags, one per `MemoryFormat`;
it is embedded as its characteristic function.  The constant table `X`
pairs each flag with its format in declaration order. -/

namespace MemoryFormatSelection

/-- A selection of memory formats (the 23 bitflags of
`MemoryFormatSelection`, as a characteristic function). -/
def Selection := MemoryFormat → Bool

/-- The table `MemoryFormatSelection::X`: all formats in flag order. -/
def X : List MemoryFormat :=
  [.B8g8r8a8Premultiplied, .A8r8g8b8Premultiplied, .R8g8b8a8Premultiplied,
   .B8g8r8a8, .A8r8g8b8, .R8g8b8a8, .A8b8g8r8, .R8g8b8, .B8g8r8,
   .R16g16b16, .R16g16b16a16Premultiplied, .R16g16b16a16,
   .R16g16b16Float, .R16g16b16a16Float, .R32g32b32Float,
   .R32g32b32a32FloatPremultiplied, .R32g32b32a32Float,
   .G8a8Premultiplied, .G8a8, .G8, .G16a16Premultiplied, .G16a16, .G16]

/-- `MemoryFormatSelection::memory_formats`: the formats whose flag is
contained in the selection, in `X` order. -/
def memoryFormats (sel : Selection) : List MemoryFormat :=
  X.filter (fun f => sel f)

/-- The sort key of `best_format_for`, the Rust tuple
`(alpha==, channels>=, type==, size>=, -channels, -size)`. -/
structure SortKey where
  alphaMatches : Bool
  channelsGe : Bool
  channelTypeMatches : Bool
  channelSizeGe : Bool
  negChannels : ℤ
  negChannelSize : ℤ
  deriving DecidableEq, Repr

/-- The key computed for candidate `x` against source format `src` in
`best_format_for`. -/
def sortKey (src x : MemoryFormat) : SortKey where
  alphaMatches := x.hasAlpha = src.hasAlpha
  channelsGe := src.nChannels ≤ x.nChannels
  channelTypeMatches := x.channelType = src.channelType
  channelSizeGe := src.channelType.size ≤ x.channelType.size
  negChannels := -(x.nChannels : ℤ)
  negChannelSize := -(x.channelType.size : ℤ)

/-- Lexicographic order on sort keys: the derived `Ord` of the Rust tuple,
with `false < true` on `bool`. -/
def keyLeB (a b : SortKey) : Bool :=
  if a.alphaMatches = b.alphaMatches then
    if a.channelsGe = b.channelsGe then
      if a.channelTypeMatches = b.channelTypeMatches then
        if a.channelSizeGe = b.channelSizeGe then
          if a.negChannels = b.negChannels then
            a.negChannelSize ≤ b.negChannelSize
          else a.negChannels < b.negChannels
        else a.channelSizeGe = false
      else a.channelTypeMatches = false
    else a.channelsGe = false
  else a.alphaMatches = false

/-- `MemoryFormatSelection::best_format_for`: return `src` itself when
selected, otherwise sort the selected formats by key ascending (stable)
and take the last. -/
def bestFormatFor (sel : Selection) (src : MemoryFormat) :
    Option MemoryFormat :=
  let formats := memoryFormats sel
  if src ∈ formats then
    some src
  else
    let formatsCategorized := formats.map (fun x => (sortKey src x, x))
    let sorted := formatsCategorized.mergeSort (fun a b => keyLeB a.1 b.1)
    sorted.getLast?.map (fun x => x.2)

theorem keyLeB_refl (a : SortKey) : keyLeB a a := by
  simp [keyLeB]

theorem keyLeB_trans (a b c : SortKey) (h1 : keyLeB a b) (h2 : keyLeB b c) :
    keyLeB a c := by
  rcases a with ⟨a1, a2, a3, a4, a5, a6⟩
  rcases b with ⟨b1, b2, b3, b4, b5, b6⟩
  rcases c with ⟨c1, c2, c3, c4, c5, c6⟩
  simp only [keyLeB, decide_eq_true_eq] at h1 h2 ⊢
  split_ifs at h1 h2 ⊢ <;> first | omega | (simp_all <;> omega) | simp_all

theorem keyLeB_total (a b : SortKey) : keyLeB a b || keyLeB b a := by
  rcases a with ⟨a1, a2, a3, a4, a5, a6⟩
  rcases b with ⟨b1, b2, b3, b4, b5, b6⟩
  simp only [keyLeB, decide_eq_true_eq, Bool.or_eq_true]
  split_ifs <;>
    first
      | omega
      | ((simp_all <;> omega); done)
      | (simp_all; done)
      | ((cases a1 <;> cases b1 <;> simp_all); done)
      | ((cases a2 <;> cases b2 <;> simp_all); done)
      | ((cases a3 <;> cases b3 <;> simp_all); done)
      | ((cases a4 <;> cases b4 <;> simp_all); done)

theorem key_src_maximal (src x : MemoryFormat) :
    keyLeB (sortKey src x) (sortKey src src) := by
  revert src x
  decide

theorem rel_getLast {α : Type} {R : α → α → Prop} (hrefl : ∀ a, R a a) :
    ∀ (l : List α) (hl : l ≠ []), l.Pairwise R → ∀ a ∈ l, R a (l.getLast hl)
  | [x], _, _, a, ha => by
      rcases List.mem_singleton.mp ha with rfl
      exact hrefl a
  | x :: y :: ys, _, hp, a, ha => by
      rw [List.getLast_cons (List.cons_ne_nil y ys)]
      rcases List.mem_cons.mp ha with rfl | ha
      · exact (List.pairwise_cons.mp hp).1 _ (List.getLast_mem _)
      · exact rel_getLast hrefl (y :: ys) (List.cons_ne_nil y ys)
          (List.pairwise_cons.mp hp).2 a ha

end MemoryFormatSelection

/-- C5: `best_format_for` over a selection `T` returns nothing if and only
if `T` selects no formats, and otherwise returns a member of `T` maximal
under the sort key
`(alpha_matches, channels ≥ src, type_matches, size ≥ src, −channels, −size)`. -/
theorem best_format_for_spec (sel : MemoryFormatSelection.Selection)
    (src : MemoryFormat) :
    (MemoryFormatSelection.bestFormatFor sel src = none
      ↔ MemoryFormatSelection.memoryFormats sel = [])
    ∧ ∀ m, MemoryFormatSelection.bestFormatFor sel src = some m →
        m ∈ MemoryFormatSelection.memoryFormats sel
          ∧ ∀ x ∈ MemoryFormatSelection.memoryFormats sel,
              MemoryFormatSelection.keyLeB (MemoryFormatSelection.sortKey src x)
                (MemoryFormatSelection.sortKey src m) := by
  classical
  set L := MemoryFormatSelection.memoryFormats sel with hL
  by_cases hsrc : src ∈ L
  · constructor
    · rw [MemoryFormatSelection.bestFormatFor, ← hL, if_pos hsrc]
      constructor
      · intro h; exact absurd h (by simp)
      · intro h; rw [h] at hsrc; exact absurd hsrc (by simp)
    · intro m hm
      rw [MemoryFormatSelection.bestFormatFor, ← hL, if_pos hsrc] at hm
      rcases Option.some_injective _ hm with rfl
      exact ⟨hsrc, fun x _ => MemoryFormatSelection.key_src_maximal src x⟩
  · set P := L.map (fun x => (MemoryFormatSelection.sortKey src x, x)) with hP
    set le : MemoryFormatSelection.SortKey × MemoryFormat →
        MemoryFormatSelection.SortKey × MemoryFormat → Bool :=
      fun a b => MemoryFormatSelection.keyLeB a.1 b.1 with hle
    have hperm : (P.mergeSort le).Perm P := List.mergeSort_perm P le
    have hpair : (P.mergeSort le).Pairwise (fun a b => le a b = true) :=
      List.sorted_mergeSort
        (fun a b c h1 h2 => MemoryFormatSelection.keyLeB_trans a.1 b.1 c.1 h1 h2)
        (fun a b => MemoryFormatSelection.keyLeB_total a.1 b.1) P
    have hbf : MemoryFormatSelection.bestFormatFor sel src
        = (P.mergeSort le).getLast?.map (fun x => x.2) := by
      rw [MemoryFormatSelection.bestFormatFor, ← hL, if_neg hsrc]
    constructor
    · rw [hbf]
      constructor
      · intro h
        have hS : P.mergeSort le = [] := by
          rcases hne : P.mergeSort le with _ | ⟨q, S⟩
          · rfl
          · rw [hne] at h
            rw [List.getLast?_eq_getLast _ (by simp)] at h
            simp at h
        have : P = [] := (hS ▸ hperm).symm.eq_nil
        exact List.map_eq_nil_iff.mp (hP ▸ this)
      · intro h
        have hPnil : P = [] := by rw [hP, h]; rfl
        have hS : P.mergeSort le = [] := by
          rw [hPnil]
          exact (List.mergeSort_perm [] le).eq_nil
        rw [hS]
        rfl
    · intro m hm
      rw [hbf] at hm
      rcases hS : P.mergeSort le with _ | ⟨q0, S0⟩
      · rw [hS] at hm; simp at hm
      · have hne : P.mergeSort le ≠ [] := by rw [hS]; simp
        rw [List.getLast?_eq_getLast _ hne] at hm
        set q := (P.mergeSort le).getLast hne with hq
        have hqm : q.2 = m := by
          simpa using hm
        have hqmem : q ∈ P := hperm.mem_iff.mp (List.getLast_mem hne)
        rcases List.mem_map.mp (hP ▸ hqmem) with ⟨x, hx, hxq⟩
        have hq1 : q.1 = MemoryFormatSelection.sortKey src m := by
          rw [← hxq] at hqm ⊢
          simp only at hqm
          rw [hqm]
        refine ⟨?_, ?_⟩
        · rw [← hqm, ← hxq]; exact hx
        · intro y hy
          have hyP : (MemoryFormatSelection.sortKey src y, y) ∈ P := by
            rw [hP]; exact List.mem_map.mpr ⟨y, hy, rfl⟩
          have hyS : (MemoryFormatSelection.sortKey src y, y) ∈ P.mergeSort le :=
            hperm.mem_iff.mpr hyP
          have := MemoryFormatSelection.rel_getLast
            (R := fun a b => le a b = true)
            (fun a => MemoryFormatSelection.keyLeB_refl a.1)
            (P.mergeSort le) hne hpair _ hyS
          rw [← hq1]
          exact this

/-- Witness for `best_format_for_spec`: selecting `R8g8b8` and `R8g8b8a8`
for source `R8g8b8a8` yields `R8g8b8a8`, which the theorem certifies to
be a maximal member of the selection. -/
theorem best_format_for_spec_witness :
    MemoryFormatSelection.bestFormatFor
        (fun f => f = MemoryFormat.R8g8b8 || f = MemoryFormat.R8g8b8a8)
        MemoryFormat.R8g8b8a8
      = some MemoryFormat.R8g8b8a8
    ∧ (MemoryFormat.R8g8b8a8
        ∈ MemoryFormatSelection.memoryFormats
            (fun f => f = MemoryFormat.R8g8b8 || f = MemoryFormat.R8g8b8a8)
      ∧ ∀ x ∈ MemoryFormatSelection.memoryFormats
            (fun f => f = MemoryFormat.R8g8b8 || f = MemoryFormat.R8g8b8a8),
          MemoryFormatSelection.keyLeB
            (MemoryFormatSelection.sortKey MemoryFormat.R8g8b8a8 x)
            (MemoryFormatSelection.sortKey MemoryFormat.R8g8b8a8
              MemoryFormat.R8g8b8a8)) :=
  ⟨by decide,
   (best_format_for_spec
      (fun f => f = MemoryFormat.R8g8b8 || f = MemoryFormat.R8g8b8a8)
      MemoryFormat.R8g8b8a8).2 MemoryFormat.R8g8b8a8 (by decide)⟩

/-! ### Worker pool, from `src/glycin/src/pool.rs`

The pool keeps two maps of pooled worker processes.  Each pooled process
is embedded as the snapshot of the fields the pool logic reads: the
`process_disconnected` atomic of its `RemoteProcess`, the number of live
`UsageTracker` references (`n_users`), and the `last_use` instant
(timestamps are abstract naturals, `now - last_use` is `elapsed`). -/

namespace Pool

/-- Snapshot of a `PooledProcess` (`pool.rs`). -/
structure PooledProcess where
  processDisconnected : Bool
  nUsers : ℕ
  lastUse : ℕ
  deriving DecidableEq, Repr

/-- The candidate-selection loop of `Pool::get_process` over an existing
bucket: skip entries whose disconnected flag is set or whose user count
reached `max_parallel_operations`; reuse the first remaining entry.
`none` models falling through to spawning a new process. -/
def getProcessSelect (maxParallelOperations : ℕ) :
    List PooledProcess → Option PooledProcess
  | [] => none
  | p :: rest =>
    if p.processDisconnected then
      getProcessSelect maxParallelOperations rest
    else if maxParallelOperations ≤ p.nUsers then
      getProcessSelect maxParallelOperations rest
    else
      some p

/-- Pool state: the `loaders` and `editors` maps (association lists keyed
by the `ConfigEntryHash`, abstracted to `ℕ`), and the
`loader_retention_time` configuration. -/
structure PoolState where
  loaders : List (ℕ × List PooledProcess)
  editors : List (ℕ × List PooledProcess)
  loaderRetentionTime : ℕ
  deriving DecidableEq, Repr

/-- `Pool::clean_loaders`: for every bucket of the `loaders` map, retain
exactly the processes that have users or have not been idle longer than
the retention time.  `now` is the current instant. -/
def cleanLoaders (now : ℕ) (pool : PoolState) : PoolState :=
  { pool with
    loaders := pool.loaders.map (fun kv =>
      (kv.1, kv.2.filter (fun l =>
        !(l.nUsers = 0 && pool.loaderRetentionTime < now - l.lastUse)))) }

end Pool

/-- C3: a process handle returned by the pool selection loop of
`get_process` from an existing bucket always has its disconnected flag
unset and strictly fewer than `max_parallel_operations` users at
selection time; in particular a disconnected worker is never selected. -/
theorem get_process_select_invariant (maxOps : ℕ)
    (bucket : List Pool.PooledProcess) (p : Pool.PooledProcess)
    (h : Pool.getProcessSelect maxOps bucket = some p) :
    p.processDisconnected = false ∧ p.nUsers < maxOps := by
  induction bucket with
  | nil => simp [Pool.getProcessSelect] at h
  | cons q rest ih =>
    rw [Pool.getProcessSelect] at h
    by_cases hd : q.processDisconnected
    · rw [if_pos hd] at h
      exact ih h
    · rw [if_neg hd] at h
      by_cases hu : maxOps ≤ q.nUsers
      · rw [if_pos hu] at h
        exact ih h
      · rw [if_neg hu] at h
        rcases Option.some_injective _ h with rfl
        exact ⟨Bool.eq_false_iff.mpr hd, Nat.lt_of_not_le hu⟩

/-- Witness for `get_process_select_invariant`: a bucket holding a
disconnected worker, a saturated worker and a fresh worker yields the
fresh worker. -/
theorem get_process_select_invariant_witness :
    Pool.getProcessSelect 2
        [⟨true, 0, 0⟩, ⟨false, 2, 0⟩, ⟨false, 1, 0⟩]
      = some ⟨false, 1, 0⟩
    ∧ ((⟨false, 1, 0⟩ : Pool.PooledProcess).processDisconnected = false
        ∧ (⟨false, 1, 0⟩ : Pool.PooledProcess).nUsers < 2) :=
  ⟨by decide,
   get_process_select_invariant 2
     [⟨true, 0, 0⟩, ⟨false, 2, 0⟩, ⟨false, 1, 0⟩] ⟨false, 1, 0⟩ (by decide)⟩

/-- C10: the retention cleanup `clean_loaders` only filters the buckets of
the `loaders` map (each bucket becomes a sublist of itself, with the same
keys in the same order) and leaves the `editors` map unchanged, so an
idle editor process is never evicted by the retention mechanism. -/
theorem clean_loaders_only_loaders (now : ℕ) (pool : Pool.PoolState) :
    (Pool.cleanLoaders now pool).editors = pool.editors
    ∧ List.Forall₂ (fun a b : ℕ × List Pool.PooledProcess =>
        a.1 = b.1 ∧ a.2.Sublist b.2)
      (Pool.cleanLoaders now pool).loaders pool.loaders := by
  refine ⟨rfl, ?_⟩
  show List.Forall₂ _ (pool.loaders.map _) pool.loaders
  rw [List.forall₂_map_left_iff]
  refine List.forall₂_same.mpr (fun kv _ => ⟨rfl, ?_⟩)
  exact List.filter_sublist _

/-! ### Orientations and operations

`Operation`/`Operations` are from `src/glycin-common/src/operations.rs`.
The `Orientation` and `Rotation` types come from the external
`gufo_common::orientation` crate (not part of this repository); they are
modelled from the spec: an orientation is one of the eight EXIF
combinations of an optional horizontal mirror followed by a
counter-clockwise rotation of 0/90/180/270 degrees, and the `add_*`
methods compose a further operation after the current orientation (the
convention is pinned by the doctests of `Operations::orientation` and of
`Operations::new_orientation`, reproved below). -/

/-- Modelled from the spec: `gufo_common::orientation::Rotation`, a
counter-clockwise quarter-turn count. -/
inductive Rotation
  | R0
  | R90
  | R180
  | R270
  deriving DecidableEq, Repr, Fintype

/-- Quarter-turn count of a rotation. -/
def Rotation.toF : Rotation → Fin 4
  | .R0 => 0
  | .R90 => 1
  | .R180 => 2
  | .R270 => 3

/-- Rotation with the given quarter-turn count. -/
def Rotation.ofF (k : Fin 4) : Rotation :=
  if k = 0 then .R0 else if k = 1 then .R90 else if k = 2 then .R180 else .R270

/-- Modelled from the spec: `gufo_common::orientation::Orientation`, an
optional horizontal mirror applied first, then a rotation. -/
structure Orientation where
  mirror : Bool
  rotate : Rotation
  deriving DecidableEq, Repr, Fintype

/-- Modelled from the spec: `Orientation::new(mirror, rotation)`. -/
def Orientation.new (m : Bool) (r : Rotation) : Orientation := ⟨m, r⟩

/-- Modelled from the spec: compose a further rotation after the current
orientation (rotation counts add modulo four). -/
def Orientation.addRotation (o : Orientation) (r : Rotation) : Orientation :=
  ⟨o.mirror, Rotation.ofF (o.rotate.toF + r.toF)⟩

/-- Modelled from the spec: compose a horizontal mirror after the current
orientation; in the dihedral group `M ∘ R^k = R^(-k) ∘ M`. -/
def Orientation.addMirrorHorizontally (o : Orientation) : Orientation :=
  ⟨!o.mirror, Rotation.ofF (-o.rotate.toF)⟩

/-- Modelled from the spec: compose a vertical mirror (= horizontal
mirror followed by a 180° rotation) after the current orientation. -/
def Orientation.addMirrorVertically (o : Orientation) : Orientation :=
  ⟨!o.mirror, Rotation.ofF (2 - o.rotate.toF)⟩

/-- The identity orientation `Orientation::Id`. -/
def Orientation.id : Orientation := ⟨false, .R0⟩

/-- First doctest of `Operations::orientation`: rotating by 180 and then
by 270 degrees reduces to a 90 degree rotation (spec scenario S4). -/
theorem orientation_doctest_rotations :
    (Orientation.id.addRotation .R180).addRotation .R270
      = ⟨false, .R90⟩ := by decide

/-- Second doctest of `Operations::orientation`: rotate 90 then mirror
horizontally is `MirroredRotation270`. -/
theorem orientation_doctest_mirror :
    (Orientation.id.addRotation .R90).addMirrorHorizontally
      = ⟨true, .R270⟩ := by decide

/-- Third doctest of `Operations::orientation`. -/
theorem orientation_doctest_mixed :
    (((Orientation.id.addMirrorHorizontally).addMirrorVertically).addRotation
        .R270).addMirrorHorizontally
      = ⟨true, .R270⟩ := by decide

/-- `enum Operation` from `operations.rs` (`Rotate` holds a
counter-clockwise rotation). -/
inductive Operation
  | Clip (c : ℕ × ℕ × ℕ × ℕ)
  | MirrorHorizontally
  | MirrorVertically
  | Rotate (r : Rotation)
  deriving DecidableEq, Repr

/-- `struct Operations` from `operations.rs`: the decoded known
operations plus the sidecar list of unknown operations. -/
structure Operations where
  operations : List Operation
  unknownOperations : List String
  deriving DecidableEq, Repr

/-- The loop body of `Operations::orientation`, with the accumulated
orientation explicit; the wildcard arm of the source match (reached for
`Clip`) returns `None`. -/
def orientationGo (o : Orientation) : List Operation → Option Orientation
  | [] => some o
  | .MirrorHorizontally :: rest => orientationGo o.addMirrorHorizontally rest
  | .MirrorVertically :: rest => orientationGo o.addMirrorVertically rest
  | .Rotate r :: rest => orientationGo (o.addRotation r) rest
  | .Clip _ :: _ => none

/-- `Operations::orientation`: reduce the operation list to a single
orientation, starting from `Orientation::Id`. -/
def Operations.orientation (ops : Operations) : Option Orientation :=
  orientationGo Orientation.id ops.operations

/-! ### Pixel buffers and `change_orientation`, from
`src/glycin-utils/src/editing/orientation.rs`

Pixel buffers are byte lists.  The imperative loops of the source are
embedded as folds over explicit lists of index pairs in iteration order:
a swap loop becomes `applySwaps` over its `(p0, p1)` pairs, a write loop
(`v[p1] = img_buf[p0]`) becomes `applyWrites` over its `(p1, p0)`
pairs. -/

/-- Byte value truncation of the `as u32` cast. -/
def u32cast (n : ℕ) : ℕ := n % 4294967296

/-- `enum ExtendedMemoryFormat` from `memory_format.rs`: the 23 basic
formats plus `Y8Cb8Cr8`. -/
inductive ExtendedMemoryFormat
  | basic (f : MemoryFormat)
  | Y8Cb8Cr8
  deriving DecidableEq, Repr

/-- `MemoryFormatInfo::n_bytes` for `ExtendedMemoryFormat`
(`Y8Cb8Cr8` occupies 3 bytes). -/
def ExtendedMemoryFormat.nBytes : ExtendedMemoryFormat → ℕ
  | .basic f => f.nBytes
  | .Y8Cb8Cr8 => 3

/-- `EditingFrame` (`glycin-utils/src/editing.rs`): the dimension fields
read and written through the `FrameDimensions` trait. -/
structure EditingFrame where
  width : ℕ
  height : ℕ
  stride : ℕ
  memoryFormat : ExtendedMemoryFormat
  deriving DecidableEq, Repr

/-- `<[u8]>::swap` on a byte list. -/
def listSwap (l : List ℕ) (a b : ℕ) : List ℕ :=
  let va := l.getD a 0
  let vb := l.getD b 0
  (l.set a vb).set b va

/-- Run a swap loop: swap each index pair in iteration order. -/
def applySwaps (ps : List (ℕ × ℕ)) (l : List ℕ) : List ℕ :=
  ps.foldl (fun b q => listSwap b q.1 q.2) l

/-- Run a write loop: for each pair `(d, s)` in iteration order set
`v[d] := src[s]`. -/
def applyWrites (src : List ℕ) (ws : List (ℕ × ℕ)) (v : List ℕ) : List ℕ :=
  ws.foldl (fun v q => v.set q.1 (src.getD q.2 0)) v

/-- The index pairs produced by a triple-nested
`for x in 0..a { for y in 0..b(x) { for i in 0..c { ... } } }` loop, in
iteration order. -/
def range3 (a : ℕ) (b : ℕ → ℕ) (c : ℕ) (f : ℕ → ℕ → ℕ → ℕ × ℕ) :
    List (ℕ × ℕ) :=
  (List.range a).flatMap fun x =>
    (List.range (b x)).flatMap fun y =>
      (List.range c).map fun i => f x y i

/-- Swap pairs of the mirror loop of `change_orientation`. -/
def mirrorPairs (w h stride p : ℕ) : List (ℕ × ℕ) :=
  range3 (w / 2) (fun _ => h) p fun x y i =>
    (x * p + y * stride + i, (w - 1 - x) * p + y * stride + i)

/-- Swap pairs of the `Rotation::_180` loop of `change_orientation`
(`div_ceil` columns, half the rows at an odd middle column). -/
def rot180Pairs (w h stride p : ℕ) : List (ℕ × ℕ) :=
  range3 ((w + 2 - 1) / 2)
    (fun x => if w % 2 = 1 ∧ w / 2 = x then h / 2 else h) p fun x y i =>
    (x * p + y * stride + i, (w - 1 - x) * p + (h - 1 - y) * stride + i)

/-- Write pairs `(p1, p0)` of the `Rotation::_90` loop of
`change_orientation`. -/
def rot90Writes (w h stride p : ℕ) : List (ℕ × ℕ) :=
  range3 w (fun _ => h) p fun x y i =>
    ((w - 1 - x) * h * p + y * p + i, x * p + y * stride + i)

/-- Write pairs `(p1, p0)` of the `Rotation::_270` loop of
`change_orientation`. -/
def rot270Writes (w h stride p : ℕ) : List (ℕ × ℕ) :=
  range3 w (fun _ => h) p fun x y i =>
    (x * h * p + (h - 1 - y) * p + i, x * p + y * stride + i)

/-- `change_orientation` (`editing/orientation.rs`): optional horizontal
mirror in place, then rotation — in place for 0°/180°, out of place into
a fresh `width*height*pixel_size` buffer for 90°/270°, updating the frame
dimensions and recomputing the stride as `(height * pixel_size) as u32`. -/
def changeOrientation (buf : List ℕ) (frame : EditingFrame)
    (transformation : Orientation) : EditingFrame × List ℕ :=
  let stride := frame.stride
  let width := frame.width
  let height := frame.height
  let pixelSize := frame.memoryFormat.nBytes
  let nBytes := width * height * pixelSize
  let buf :=
    if transformation.mirror then
      applySwaps (mirrorPairs width height stride pixelSize) buf
    else buf
  match transformation.rotate with
  | .R0 => (frame, buf)
  | .R270 =>
      ({ frame with
          width := height, height := width,
          stride := u32cast (height * pixelSize) },
       applyWrites buf (rot270Writes width height stride pixelSize)
         (List.replicate nBytes 0))
  | .R90 =>
      ({ frame with
          width := height, height := width,
          stride := u32cast (height * pixelSize) },
       applyWrites buf (rot90Writes width height stride pixelSize)
         (List.replicate nBytes 0))
  | .R180 =>
      (frame,
       applySwaps (rot180Pairs width height stride pixelSize) buf)

/-! #### Generic semantics of swap and write loops -/

/-- All indices a swap-pair list touches. -/
def touchedIdx (ps : List (ℕ × ℕ)) : List ℕ :=
  ps.flatMap (fun q => [q.1, q.2])

theorem listSwap_length (l : List ℕ) (a b : ℕ) :
    (listSwap l a b).length = l.length := by
  simp [listSwap]

theorem applySwaps_cons (q : ℕ × ℕ) (ps : List (ℕ × ℕ)) (l : List ℕ) :
    applySwaps (q :: ps) l = applySwaps ps (listSwap l q.1 q.2) := rfl

theorem applySwaps_length (ps : List (ℕ × ℕ)) (l : List ℕ) :
    (applySwaps ps l).length = l.length := by
  induction ps generalizing l with
  | nil => rfl
  | cons q rest ih => rw [applySwaps_cons, ih, listSwap_length]

theorem applyWrites_cons (src : List ℕ) (q : ℕ × ℕ) (ws : List (ℕ × ℕ))
    (v : List ℕ) :
    applyWrites src (q :: ws) v
      = applyWrites src ws (v.set q.1 (src.getD q.2 0)) := rfl

theorem applyWrites_length (src : List ℕ) (ws : List (ℕ × ℕ)) (v : List ℕ) :
    (applyWrites src ws v).length = v.length := by
  induction ws generalizing v with
  | nil => rfl
  | cons q rest ih => rw [applyWrites_cons, ih, List.length_set]

theorem listSwap_getD_other (l : List ℕ) (a b j : ℕ) (hja : j ≠ a)
    (hjb : j ≠ b) : (listSwap l a b).getD j 0 = l.getD j 0 := by
  simp only [listSwap, List.getD_eq_getElem?_getD,
    List.getElem?_set_ne (Ne.symm hjb), List.getElem?_set_ne (Ne.symm hja)]

theorem listSwap_getD_fst (l : List ℕ) (a b : ℕ) (hab : a ≠ b)
    (ha : a < l.length) : (listSwap l a b).getD a 0 = l.getD b 0 := by
  show ((l.set a (l.getD b 0)).set b (l.getD a 0)).getD a 0 = l.getD b 0
  rw [List.getD_eq_getElem?_getD, List.getElem?_set_ne (Ne.symm hab),
    List.getElem?_set_self (by simpa using ha)]
  rfl

theorem listSwap_getD_snd (l : List ℕ) (a b : ℕ) (hb : b < l.length) :
    (listSwap l a b).getD b 0 = l.getD a 0 := by
  show ((l.set a (l.getD b 0)).set b (l.getD a 0)).getD b 0 = l.getD a 0
  rw [List.getD_eq_getElem?_getD,
    List.getElem?_set_self (by simpa using hb)]
  rfl

theorem applySwaps_getD_notMem (ps : List (ℕ × ℕ)) (l : List ℕ) (j : ℕ)
    (hj : j ∉ touchedIdx ps) :
    (applySwaps ps l).getD j 0 = l.getD j 0 := by
  induction ps generalizing l with
  | nil => rfl
  | cons q rest ih =>
    rw [touchedIdx, List.flatMap_cons] at hj
    simp only [List.mem_append, List.mem_cons] at hj
    push_neg at hj
    rw [applySwaps_cons, ih _ (by simpa [touchedIdx] using hj.2),
      listSwap_getD_other _ _ _ _ hj.1.1 hj.1.2.1]

theorem applySwaps_getD_pair (ps : List (ℕ × ℕ)) (l : List ℕ) (q : ℕ × ℕ)
    (hnd : (touchedIdx ps).Nodup) (hq : q ∈ ps) (h1 : q.1 < l.length)
    (h2 : q.2 < l.length) :
    (applySwaps ps l).getD q.1 0 = l.getD q.2 0
      ∧ (applySwaps ps l).getD q.2 0 = l.getD q.1 0 := by
  induction ps generalizing l with
  | nil => cases hq
  | cons p rest ih =>
    have hnd' := hnd
    rw [touchedIdx, List.flatMap_cons] at hnd'
    simp only [List.cons_append, List.nil_append, List.nodup_cons,
      List.mem_cons, List.mem_append] at hnd'
    push_neg at hnd'
    rcases hnd' with ⟨⟨hp12, hp1r⟩, hp2r, hndr⟩
    rw [applySwaps_cons]
    rcases List.mem_cons.mp hq with rfl | hq'
    · constructor
      · rw [applySwaps_getD_notMem _ _ _ (by simpa [touchedIdx] using hp1r),
          listSwap_getD_fst _ _ _ hp12 h1]
      · rw [applySwaps_getD_notMem _ _ _ (by simpa [touchedIdx] using hp2r),
          listSwap_getD_snd _ _ _ h2]
    · have hq1r : q.1 ∈ touchedIdx rest := by
        simp only [touchedIdx, List.mem_flatMap]
        exact ⟨q, hq', by simp⟩
      have hq2r : q.2 ∈ touchedIdx rest := by
        simp only [touchedIdx, List.mem_flatMap]
        exact ⟨q, hq', by simp⟩
      have hl1 : q.1 < (listSwap l p.1 p.2).length := by
        rw [listSwap_length]; exact h1
      have hl2 : q.2 < (listSwap l p.1 p.2).length := by
        rw [listSwap_length]; exact h2
      rcases ih (listSwap l p.1 p.2) hndr hq' hl1 hl2 with ⟨e1, e2⟩
      constructor
      · rw [e1, listSwap_getD_other _ _ _ _
          (fun h => hp1r (by rw [← h]; exact hq2r))
          (fun h => hp2r (by rw [← h]; exact hq2r))]
      · rw [e2, listSwap_getD_other _ _ _ _
          (fun h => hp1r (by rw [← h]; exact hq1r))
          (fun h => hp2r (by rw [← h]; exact hq1r))]

theorem applyWrites_getD_notMem (src : List ℕ) (ws : List (ℕ × ℕ))
    (v : List ℕ) (j : ℕ) (hj : j ∉ ws.map Prod.fst) :
    (applyWrites src ws v).getD j 0 = v.getD j 0 := by
  induction ws generalizing v with
  | nil => rfl
  | cons q rest ih =>
    simp only [List.map_cons, List.mem_cons] at hj
    push_neg at hj
    rw [applyWrites_cons, ih _ (by simpa using hj.2),
      List.getD_eq_getElem?_getD, List.getElem?_set_ne (Ne.symm hj.1),
      ← List.getD_eq_getElem?_getD]

theorem applyWrites_getD_mem (src : List ℕ) (ws : List (ℕ × ℕ))
    (v : List ℕ) (q : ℕ × ℕ) (hnd : (ws.map Prod.fst).Nodup) (hq : q ∈ ws)
    (h1 : q.1 < v.length) :
    (applyWrites src ws v).getD q.1 0 = src.getD q.2 0 := by
  induction ws generalizing v with
  | nil => cases hq
  | cons p rest ih =>
    rw [List.map_cons, List.nodup_cons] at hnd
    rw [applyWrites_cons]
    rcases List.mem_cons.mp hq with rfl | hq'
    · rw [applyWrites_getD_notMem _ _ _ _ hnd.1,
        List.getD_eq_getElem?_getD,
        List.getElem?_set_self (by simpa using h1)]
      rfl
    · exact ih (v.set p.1 (src.getD p.2 0)) hnd.2 hq' (by simpa using h1)

/-! #### Index arithmetic for tightly strided buffers -/

theorem idx_bound {w h p x y i : ℕ} (hx : x < w) (hy : y < h) (hi : i < p) :
    x * p + y * (w * p) + i < w * h * p := by
  have e1 : x * p + i < (x + 1) * p := by
    have : (x + 1) * p = x * p + p := by ring
    omega
  have e2 : (x + 1) * p ≤ w * p := Nat.mul_le_mul_right p hx
  have e3 : y * (w * p) + w * p = (y + 1) * (w * p) := by ring
  have e4 : (y + 1) * (w * p) ≤ h * (w * p) := Nat.mul_le_mul_right (w * p) hy
  have e5 : h * (w * p) = w * h * p := by ring
  omega

theorem mul_add_lt_cancel {p t r t' r' : ℕ} (hr : r < p) (hr' : r' < p)
    (h : t * p + r = t' * p + r') : t = t' ∧ r = r' := by
  have h1 : (t * p + r) % p = r % p := by
    rw [Nat.mul_comm]; exact Nat.mul_add_mod p t r
  have h2 : (t' * p + r') % p = r' % p := by
    rw [Nat.mul_comm]; exact Nat.mul_add_mod p t' r'
  have hrr : r = r' := by
    rw [Nat.mod_eq_of_lt hr] at h1
    rw [Nat.mod_eq_of_lt hr'] at h2
    rw [← h1, ← h2, h]
  have hmul : t * p = t' * p := by omega
  have htt : t = t' := Nat.eq_of_mul_eq_mul_right (by omega) hmul
  exact ⟨htt, hrr⟩

theorem idx_inj {w p x y i x' y' i' : ℕ} (hx : x < w) (hx' : x' < w)
    (hi : i < p) (hi' : i' < p)
    (h : x * p + y * (w * p) + i = x' * p + y' * (w * p) + i') :
    x = x' ∧ y = y' ∧ i = i' := by
  have l1 : (y * w + x) * p = x * p + y * (w * p) := by ring
  have l2 : (y' * w + x') * p = x' * p + y' * (w * p) := by ring
  have e : (y * w + x) * p + i = (y' * w + x') * p + i' := by omega
  rcases mul_add_lt_cancel hi hi' e with ⟨e1, e2⟩
  have e3 : y * w + x = y' * w + x' := e1
  rcases mul_add_lt_cancel hx hx' e3 with ⟨f1, f2⟩
  exact ⟨f2, f1, e2⟩

theorem idx_surj {w h p : ℕ} (j : ℕ) (hj : j < w * h * p) :
    ∃ x y i, x < w ∧ y < h ∧ i < p ∧ j = x * p + y * (w * p) + i := by
  have hp : 0 < p := by
    rcases Nat.eq_zero_or_pos p with rfl | hp
    · simp at hj
    · exact hp
  have hw : 0 < w := by
    rcases Nat.eq_zero_or_pos w with rfl | hw
    · simp at hj
    · exact hw
  refine ⟨(j / p) % w, (j / p) / w, j % p, Nat.mod_lt _ hw, ?_, Nat.mod_lt _ hp, ?_⟩
  · have ht : j / p < w * h := by
      rw [Nat.div_lt_iff_lt_mul hp]
      have e : w * h * p = (w * h) * p := by ring
      omega
    exact Nat.div_lt_of_lt_mul ht
  · have e2 : w * (j / p / w) + (j / p) % w = j / p := Nat.div_add_mod (j / p) w
    have key : (j / p) % w * p + (j / p) / w * (w * p) + j % p
        = (w * ((j / p) / w) + (j / p) % w) * p + j % p := by ring
    rw [key, e2, Nat.mul_comm]
    exact (Nat.div_add_mod j p).symm

/-! #### The loop domains as lists of coordinate triples -/

/-- The coordinate triples of a triple-nested loop, in iteration order. -/
def prodList (a : ℕ) (b : ℕ → ℕ) (c : ℕ) : List (ℕ × ℕ × ℕ) :=
  (List.range a).flatMap fun x =>
    (List.range (b x)).flatMap fun y =>
      (List.range c).map fun i => (x, y, i)

theorem range3_eq_map (a : ℕ) (b : ℕ → ℕ) (c : ℕ)
    (f : ℕ → ℕ → ℕ → ℕ × ℕ) :
    range3 a b c f = (prodList a b c).map (fun t => f t.1 t.2.1 t.2.2) := by
  simp only [range3, prodList, List.map_flatMap, List.map_map]
  rfl

theorem mem_prodList {a c : ℕ} {b : ℕ → ℕ} {t : ℕ × ℕ × ℕ} :
    t ∈ prodList a b c ↔ t.1 < a ∧ t.2.1 < b t.1 ∧ t.2.2 < c := by
  rcases t with ⟨x, y, i⟩
  simp only [prodList, List.mem_flatMap, List.mem_map, List.mem_range]
  constructor
  · rintro ⟨x', hx', y', hy', i', hi', h⟩
    cases h
    exact ⟨hx', hy', hi'⟩
  · rintro ⟨h1, h2, h3⟩
    exact ⟨x, h1, y, h2, i, h3, rfl⟩

theorem nodup_prodList (a : ℕ) (b : ℕ → ℕ) (c : ℕ) :
    (prodList a b c).Nodup := by
  unfold prodList
  rw [List.nodup_flatMap]
  constructor
  · intro x _
    rw [List.nodup_flatMap]
    constructor
    · intro y _
      refine List.Nodup.map_on ?_ (List.nodup_range c)
      intro i _ i' _ h
      simpa using h
    · refine List.Pairwise.imp ?_ (List.nodup_range (b x))
      intro y y' hyy t ht ht'
      rcases List.mem_map.mp ht with ⟨i, _, rfl⟩
      rcases List.mem_map.mp ht' with ⟨i', _, h⟩
      exact hyy (by simpa using congrArg (fun q => q.2.1) h.symm)
  · refine List.Pairwise.imp ?_ (List.nodup_range a)
    intro x x' hxx t ht ht'
    simp only [List.mem_flatMap, List.mem_map] at ht ht'
    rcases ht with ⟨y, _, i, _, rfl⟩
    rcases ht' with ⟨y', _, i', _, h⟩
    exact hxx (by simpa using congrArg (fun q => q.1) h.symm)

/-- Nodup of the combined touched-index list of a swap loop whose pairs
come from injective, mutually disjoint index maps. -/
theorem nodup_touched_of_pairs {F G : ℕ × ℕ × ℕ → ℕ}
    (dom : List (ℕ × ℕ × ℕ)) (hnd : dom.Nodup)
    (hF : ∀ t ∈ dom, ∀ t' ∈ dom, F t = F t' → t = t')
    (hG : ∀ t ∈ dom, ∀ t' ∈ dom, G t = G t' → t = t')
    (hX : ∀ t ∈ dom, ∀ t' ∈ dom, F t ≠ G t') :
    (touchedIdx (dom.map (fun t => (F t, G t)))).Nodup := by
  have e : touchedIdx (dom.map fun t => (F t, G t))
      = dom.flatMap (fun t => [F t, G t]) := by
    unfold touchedIdx
    rw [List.flatMap_map]
  rw [e, List.nodup_flatMap]
  constructor
  · intro t ht
    refine List.nodup_cons.mpr ⟨?_, by simp⟩
    simp only [List.mem_singleton]
    exact hX t ht t ht
  · refine List.Pairwise.imp_of_mem ?_ hnd
    intro t t' ht ht' htt z hz hz'
    simp only [List.mem_cons, List.mem_singleton, List.not_mem_nil,
      or_false] at hz hz'
    rcases hz with rfl | rfl <;> rcases hz' with h | h
    · exact htt (hF t ht t' ht' h)
    · exact hX t ht t' ht' h
    · exact hX t' ht' t ht h.symm
    · exact htt (hG t ht t' ht' h)

/-- Nodup of the destination indices of a write loop with an injective
destination map. -/
theorem nodup_fst_of_writes {F G : ℕ × ℕ × ℕ → ℕ}
    (dom : List (ℕ × ℕ × ℕ)) (hnd : dom.Nodup)
    (hF : ∀ t ∈ dom, ∀ t' ∈ dom, F t = F t' → t = t') :
    ((dom.map (fun t => (F t, G t))).map Prod.fst).Nodup := by
  rw [List.map_map]
  exact List.Nodup.map_on (fun t ht t' ht' h => hF t ht t' ht' h) hnd

/-! #### Pointwise semantics of the four `change_orientation` loops

`pix w p x y i` is the byte index of byte `i` of the pixel in column `x`,
row `y` of a tightly strided buffer of width `w` and pixel size `p`. -/

/-- Byte index in a tightly strided buffer. -/
def pix (w p x y i : ℕ) : ℕ := x * p + y * (w * p) + i

theorem mem_touched_pairs {F G : ℕ × ℕ × ℕ → ℕ} {dom : List (ℕ × ℕ × ℕ)}
    {z : ℕ} :
    z ∈ touchedIdx (dom.map fun t => (F t, G t))
      ↔ ∃ t ∈ dom, z = F t ∨ z = G t := by
  unfold touchedIdx
  rw [List.flatMap_map]
  simp only [List.mem_flatMap, List.mem_cons, List.mem_singleton,
    List.not_mem_nil, or_false]

theorem mirror_loop_getD (w h p : ℕ) (buf : List ℕ)
    (hlen : buf.length = w * h * p) {x y i : ℕ}
    (hx : x < w) (hy : y < h) (hi : i < p) :
    (applySwaps (mirrorPairs w h (w * p) p) buf).getD (pix w p x y i) 0
      = buf.getD (pix w p (w - 1 - x) y i) 0 := by
  have hw : 0 < w := by omega
  rw [mirrorPairs, range3_eq_map]
  set F : ℕ × ℕ × ℕ → ℕ :=
    fun t => t.1 * p + t.2.1 * (w * p) + t.2.2 with hF
  set G : ℕ × ℕ × ℕ → ℕ :=
    fun t => (w - 1 - t.1) * p + t.2.1 * (w * p) + t.2.2 with hG
  have hFinj : ∀ t ∈ prodList (w / 2) (fun _ => h) p,
      ∀ t' ∈ prodList (w / 2) (fun _ => h) p, F t = F t' → t = t' := by
    intro t ht t' ht' he
    rcases mem_prodList.mp ht with ⟨b1, b2, b3⟩
    rcases mem_prodList.mp ht' with ⟨c1, c2, c3⟩
    rcases idx_inj (by omega : t.1 < w) (by omega : t'.1 < w) b3 c3 he with
      ⟨e1, e2, e3⟩
    rcases t with ⟨x1, y1, i1⟩; rcases t' with ⟨x2, y2, i2⟩
    simp only at e1 e2 e3
    simp [e1, e2, e3]
  have hGinj : ∀ t ∈ prodList (w / 2) (fun _ => h) p,
      ∀ t' ∈ prodList (w / 2) (fun _ => h) p, G t = G t' → t = t' := by
    intro t ht t' ht' he
    rcases mem_prodList.mp ht with ⟨b1, b2, b3⟩
    rcases mem_prodList.mp ht' with ⟨c1, c2, c3⟩
    rcases idx_inj (by omega : w - 1 - t.1 < w) (by omega : w - 1 - t'.1 < w)
      b3 c3 he with ⟨e1, e2, e3⟩
    rcases t with ⟨x1, y1, i1⟩; rcases t' with ⟨x2, y2, i2⟩
    simp only at e1 e2 e3 b1 c1
    have : x1 = x2 := by omega
    simp [this, e2, e3]
  have hXd : ∀ t ∈ prodList (w / 2) (fun _ => h) p,
      ∀ t' ∈ prodList (w / 2) (fun _ => h) p, F t ≠ G t' := by
    intro t ht t' ht' he
    rcases mem_prodList.mp ht with ⟨b1, b2, b3⟩
    rcases mem_prodList.mp ht' with ⟨c1, c2, c3⟩
    rcases idx_inj (by omega : t.1 < w) (by omega : w - 1 - t'.1 < w)
      b3 c3 he with ⟨e1, e2, e3⟩
    omega
  have hnd := nodup_touched_of_pairs _ (nodup_prodList (w / 2) (fun _ => h) p)
    hFinj hGinj hXd
  by_cases hxa : x < w / 2
  · have hmem : ((x, y, i) : ℕ × ℕ × ℕ) ∈ prodList (w / 2) (fun _ => h) p :=
      mem_prodList.mpr ⟨hxa, hy, hi⟩
    have hq : (F (x, y, i), G (x, y, i))
        ∈ (prodList (w / 2) (fun _ => h) p).map (fun t => (F t, G t)) :=
      List.mem_map.mpr ⟨_, hmem, rfl⟩
    have := (applySwaps_getD_pair _ buf _ hnd hq
      (by rw [hlen]; exact idx_bound (by omega) hy hi)
      (by rw [hlen]; exact idx_bound (by omega) hy hi)).1
    exact this
  · by_cases hxb : w - 1 - x < w / 2
    · have hmem : ((w - 1 - x, y, i) : ℕ × ℕ × ℕ)
          ∈ prodList (w / 2) (fun _ => h) p :=
        mem_prodList.mpr ⟨hxb, hy, hi⟩
      have hq : (F (w - 1 - x, y, i), G (w - 1 - x, y, i))
          ∈ (prodList (w / 2) (fun _ => h) p).map (fun t => (F t, G t)) :=
        List.mem_map.mpr ⟨_, hmem, rfl⟩
      have h2 := (applySwaps_getD_pair _ buf _ hnd hq
        (by rw [hlen]; exact idx_bound (by omega) hy hi)
        (by rw [hlen]; exact idx_bound (by omega) hy hi)).2
      have eg : G (w - 1 - x, y, i) = pix w p x y i := by
        simp only [hG, pix]
        have : w - 1 - (w - 1 - x) = x := by omega
        rw [this]
      have ef : F (w - 1 - x, y, i) = pix w p (w - 1 - x) y i := rfl
      rw [eg, ef] at h2
      exact h2
    · have hcenter : w - 1 - x = x := by omega
      have hnm : pix w p x y i
          ∉ touchedIdx ((prodList (w / 2) (fun _ => h) p).map
              (fun t => (F t, G t))) := by
        rw [mem_touched_pairs]
        rintro ⟨t, ht, he | he⟩
        · rcases mem_prodList.mp ht with ⟨b1, b2, b3⟩
          rcases idx_inj hx (by omega : t.1 < w) hi b3 he with ⟨e1, _, _⟩
          omega
        · rcases mem_prodList.mp ht with ⟨b1, b2, b3⟩
          rcases idx_inj hx (by omega : w - 1 - t.1 < w) hi b3 he with
            ⟨e1, _, _⟩
          omega
      rw [applySwaps_getD_notMem _ _ _ hnm, hcenter]

theorem rot180_loop_getD (w h p : ℕ) (buf : List ℕ)
    (hlen : buf.length = w * h * p) {x y i : ℕ}
    (hx : x < w) (hy : y < h) (hi : i < p) :
    (applySwaps (rot180Pairs w h (w * p) p) buf).getD (pix w p x y i) 0
      = buf.getD (pix w p (w - 1 - x) (h - 1 - y) i) 0 := by
  have hw : 0 < w := by omega
  have hh : 0 < h := by omega
  rw [rot180Pairs, range3_eq_map]
  set B : ℕ → ℕ := fun x => if w % 2 = 1 ∧ w / 2 = x then h / 2 else h with hB
  set F : ℕ × ℕ × ℕ → ℕ :=
    fun t => t.1 * p + t.2.1 * (w * p) + t.2.2 with hF
  set G : ℕ × ℕ × ℕ → ℕ :=
    fun t => (w - 1 - t.1) * p + (h - 1 - t.2.1) * (w * p) + t.2.2 with hG
  have hBle : ∀ t : ℕ × ℕ × ℕ, t ∈ prodList ((w + 2 - 1) / 2) B p →
      t.1 < (w + 2 - 1) / 2 ∧ t.2.1 < h ∧ t.2.2 < p
        ∧ (w % 2 = 1 → w / 2 = t.1 → t.2.1 < h / 2) := by
    intro t ht
    rcases mem_prodList.mp ht with ⟨b1, b2, b3⟩
    refine ⟨b1, ?_, b3, ?_⟩
    · by_cases hc : w % 2 = 1 ∧ w / 2 = t.1
      · rw [hB] at b2; simp only [if_pos hc] at b2; omega
      · rw [hB] at b2; simp only [if_neg hc] at b2; exact b2
    · intro h1 h2
      rw [hB] at b2
      simp only [if_pos (And.intro h1 h2)] at b2
      exact b2
  have hFinj : ∀ t ∈ prodList ((w + 2 - 1) / 2) B p,
      ∀ t' ∈ prodList ((w + 2 - 1) / 2) B p, F t = F t' → t = t' := by
    intro t ht t' ht' he
    rcases hBle t ht with ⟨b1, b2, b3, _⟩
    rcases hBle t' ht' with ⟨c1, c2, c3, _⟩
    rcases idx_inj (by omega : t.1 < w) (by omega : t'.1 < w) b3 c3 he with
      ⟨e1, e2, e3⟩
    rcases t with ⟨x1, y1, i1⟩; rcases t' with ⟨x2, y2, i2⟩
    simp only at e1 e2 e3
    simp [e1, e2, e3]
  have hGinj : ∀ t ∈ prodList ((w + 2 - 1) / 2) B p,
      ∀ t' ∈ prodList ((w + 2 - 1) / 2) B p, G t = G t' → t = t' := by
    intro t ht t' ht' he
    rcases hBle t ht with ⟨b1, b2, b3, _⟩
    rcases hBle t' ht' with ⟨c1, c2, c3, _⟩
    rcases idx_inj (by omega : w - 1 - t.1 < w) (by omega : w - 1 - t'.1 < w)
      b3 c3 he with ⟨e1, e2, e3⟩
    rcases t with ⟨x1, y1, i1⟩; rcases t' with ⟨x2, y2, i2⟩
    simp only at e1 e2 e3 b1 b2 c1 c2
    have hx12 : x1 = x2 := by omega
    have hy12 : y1 = y2 := by omega
    simp [hx12, hy12, e3]
  have hXd : ∀ t ∈ prodList ((w + 2 - 1) / 2) B p,
      ∀ t' ∈ prodList ((w + 2 - 1) / 2) B p, F t ≠ G t' := by
    intro t ht t' ht' he
    rcases hBle t ht with ⟨b1, b2, b3, b4⟩
    rcases hBle t' ht' with ⟨c1, c2, c3, c4⟩
    rcases idx_inj (by omega : t.1 < w) (by omega : w - 1 - t'.1 < w)
      b3 c3 he with ⟨e1, e2, e3⟩
    by_cases hw2 : w % 2 = 1
    · by_cases hmid : w / 2 = t'.1
      · have := c4 hw2 hmid
        have hmid2 : w / 2 = t.1 := by omega
        have := b4 hw2 hmid2
        omega
      · omega
    · omega
  have hnd := nodup_touched_of_pairs _ (nodup_prodList ((w + 2 - 1) / 2) B p)
    hFinj hGinj hXd
  have hbound1 : pix w p x y i < buf.length := by
    rw [hlen]; exact idx_bound hx hy hi
  have hbound2 : pix w p (w - 1 - x) (h - 1 - y) i < buf.length := by
    rw [hlen]; exact idx_bound (by omega) (by omega) hi
  by_cases hca : x < w / 2 ∨ (w % 2 = 1 ∧ x = w / 2 ∧ y < h / 2)
  · -- the pair (x, y, i) itself is iterated; front side of the swap
    have hmemB : y < B x := by
      simp only [hB]
      rcases hca with hca | ⟨h1, h2, h3⟩
      · have hne : ¬(w % 2 = 1 ∧ w / 2 = x) := by omega
        rw [if_neg hne]; exact hy
      · rw [if_pos (And.intro h1 h2.symm)]; exact h3
    have hmem : ((x, y, i) : ℕ × ℕ × ℕ) ∈ prodList ((w + 2 - 1) / 2) B p :=
      mem_prodList.mpr ⟨by omega, hmemB, hi⟩
    have hq : (F (x, y, i), G (x, y, i))
        ∈ (prodList ((w + 2 - 1) / 2) B p).map (fun t => (F t, G t)) :=
      List.mem_map.mpr ⟨_, hmem, rfl⟩
    exact (applySwaps_getD_pair _ buf _ hnd hq hbound1 hbound2).1
  · by_cases hcb : w - 1 - x < w / 2
      ∨ (w % 2 = 1 ∧ w - 1 - x = w / 2 ∧ h - 1 - y < h / 2)
    · -- the partner (w-1-x, h-1-y, i) is iterated; back side of the swap
      have hmemB : h - 1 - y < B (w - 1 - x) := by
        simp only [hB]
        rcases hcb with hcb | ⟨h1, h2, h3⟩
        · have hne : ¬(w % 2 = 1 ∧ w / 2 = w - 1 - x) := by omega
          rw [if_neg hne]; omega
        · rw [if_pos (And.intro h1 h2.symm)]; exact h3
      have hmem : ((w - 1 - x, h - 1 - y, i) : ℕ × ℕ × ℕ)
          ∈ prodList ((w + 2 - 1) / 2) B p :=
        mem_prodList.mpr ⟨by omega, hmemB, hi⟩
      have hq : (F (w - 1 - x, h - 1 - y, i), G (w - 1 - x, h - 1 - y, i))
          ∈ (prodList ((w + 2 - 1) / 2) B p).map (fun t => (F t, G t)) :=
        List.mem_map.mpr ⟨_, hmem, rfl⟩
      have h2 := (applySwaps_getD_pair _ buf _ hnd hq hbound2
        (by
          have eg : G (w - 1 - x, h - 1 - y, i) = pix w p x y i := by
            simp only [hG, pix]
            have e1 : w - 1 - (w - 1 - x) = x := by omega
            have e2 : h - 1 - (h - 1 - y) = y := by omega
            rw [e1, e2]
          rw [eg]; exact hbound1)).2
      have eg : G (w - 1 - x, h - 1 - y, i) = pix w p x y i := by
        simp only [hG, pix]
        have e1 : w - 1 - (w - 1 - x) = x := by omega
        have e2 : h - 1 - (h - 1 - y) = y := by omega
        rw [e1, e2]
      rw [eg] at h2
      exact h2
    · -- the untouched center pixel of an odd-by-odd image
      have hcx : x = w - 1 - x := by omega
      have hcy : y = h - 1 - y := by omega
      have hnm : pix w p x y i
          ∉ touchedIdx ((prodList ((w + 2 - 1) / 2) B p).map
              (fun t => (F t, G t))) := by
        rw [mem_touched_pairs]
        rintro ⟨t, ht, he | he⟩
        · rcases hBle t ht with ⟨b1, b2, b3, b4⟩
          rcases idx_inj hx (by omega : t.1 < w) hi b3 he with ⟨e1, e2, _⟩
          by_cases hw2 : w % 2 = 1
          · by_cases hmid : w / 2 = t.1
            · have := b4 hw2 hmid
              omega
            · omega
          · omega
        · rcases hBle t ht with ⟨b1, b2, b3, b4⟩
          rcases idx_inj hx (by omega : w - 1 - t.1 < w) hi b3 he with
            ⟨e1, e2, _⟩
          by_cases hw2 : w % 2 = 1
          · by_cases hmid : w / 2 = t.1
            · have := b4 hw2 hmid
              omega
            · omega
          · omega
      rw [applySwaps_getD_notMem _ _ _ hnm, ← hcx, ← hcy]

theorem rot90_loop_getD (w h p : ℕ) (buf : List ℕ) {cx ry i : ℕ}
    (hcx : cx < h) (hry : ry < w) (hi : i < p) :
    (applyWrites buf (rot90Writes w h (w * p) p)
        (List.replicate (w * h * p) 0)).getD (pix h p cx ry i) 0
      = buf.getD (pix w p (w - 1 - ry) cx i) 0 := by
  have hw : 0 < w := by omega
  rw [rot90Writes, range3_eq_map]
  set F : ℕ × ℕ × ℕ → ℕ :=
    fun t => (w - 1 - t.1) * h * p + t.2.1 * p + t.2.2 with hF
  set G : ℕ × ℕ × ℕ → ℕ :=
    fun t => t.1 * p + t.2.1 * (w * p) + t.2.2 with hG
  have hFinj : ∀ t ∈ prodList w (fun _ => h) p,
      ∀ t' ∈ prodList w (fun _ => h) p, F t = F t' → t = t' := by
    intro t ht t' ht' he
    rcases mem_prodList.mp ht with ⟨b1, b2, b3⟩
    rcases mem_prodList.mp ht' with ⟨c1, c2, c3⟩
    have e : t.2.1 * p + (w - 1 - t.1) * (h * p) + t.2.2
        = t'.2.1 * p + (w - 1 - t'.1) * (h * p) + t'.2.2 := by
      simp only [hF] at he
      have r1 : (w - 1 - t.1) * h * p = (w - 1 - t.1) * (h * p) := by ring
      have r2 : (w - 1 - t'.1) * h * p = (w - 1 - t'.1) * (h * p) := by ring
      omega
    rcases idx_inj b2 c2 b3 c3 e with ⟨e1, e2, e3⟩
    rcases t with ⟨x1, y1, i1⟩; rcases t' with ⟨x2, y2, i2⟩
    simp only at e1 e2 e3 b1 c1
    have : x1 = x2 := by omega
    simp [this, e1, e3]
  have hnd := nodup_fst_of_writes (F := F) (G := G) _ (nodup_prodList w (fun _ => h) p) hFinj
  have hmem : ((w - 1 - ry, cx, i) : ℕ × ℕ × ℕ)
      ∈ prodList w (fun _ => h) p :=
    mem_prodList.mpr ⟨by omega, hcx, hi⟩
  have hq : (F (w - 1 - ry, cx, i), G (w - 1 - ry, cx, i))
      ∈ (prodList w (fun _ => h) p).map (fun t => (F t, G t)) :=
    List.mem_map.mpr ⟨_, hmem, rfl⟩
  have ef : F (w - 1 - ry, cx, i) = pix h p cx ry i := by
    simp only [hF, pix]
    have e1 : w - 1 - (w - 1 - ry) = ry := by omega
    rw [e1]
    ring
  have hlt : (F (w - 1 - ry, cx, i), G (w - 1 - ry, cx, i)).1
      < (List.replicate (w * h * p) (0 : ℕ)).length := by
    rw [List.length_replicate]
    show F (w - 1 - ry, cx, i) < w * h * p
    rw [ef]
    have hb := idx_bound (w := h) (h := w) (p := p) hcx hry hi
    have e1 : pix h p cx ry i = cx * p + ry * (h * p) + i := rfl
    have e2 : h * w * p = w * h * p := by ring
    omega
  have h2 := applyWrites_getD_mem buf _ _ _ hnd hq hlt
  rw [ef] at h2
  exact h2

theorem rot270_loop_getD (w h p : ℕ) (buf : List ℕ) {cx ry i : ℕ}
    (hcx : cx < h) (hry : ry < w) (hi : i < p) :
    (applyWrites buf (rot270Writes w h (w * p) p)
        (List.replicate (w * h * p) 0)).getD (pix h p cx ry i) 0
      = buf.getD (pix w p ry (h - 1 - cx) i) 0 := by
  have hh : 0 < h := by omega
  rw [rot270Writes, range3_eq_map]
  set F : ℕ × ℕ × ℕ → ℕ :=
    fun t => t.1 * h * p + (h - 1 - t.2.1) * p + t.2.2 with hF
  set G : ℕ × ℕ × ℕ → ℕ :=
    fun t => t.1 * p + t.2.1 * (w * p) + t.2.2 with hG
  have hFinj : ∀ t ∈ prodList w (fun _ => h) p,
      ∀ t' ∈ prodList w (fun _ => h) p, F t = F t' → t = t' := by
    intro t ht t' ht' he
    rcases mem_prodList.mp ht with ⟨b1, b2, b3⟩
    rcases mem_prodList.mp ht' with ⟨c1, c2, c3⟩
    have e : (h - 1 - t.2.1) * p + t.1 * (h * p) + t.2.2
        = (h - 1 - t'.2.1) * p + t'.1 * (h * p) + t'.2.2 := by
      simp only [hF] at he
      have r1 : t.1 * h * p = t.1 * (h * p) := by ring
      have r2 : t'.1 * h * p = t'.1 * (h * p) := by ring
      omega
    rcases idx_inj (by omega : h - 1 - t.2.1 < h) (by omega : h - 1 - t'.2.1 < h)
      b3 c3 e with ⟨e1, e2, e3⟩
    rcases t with ⟨x1, y1, i1⟩; rcases t' with ⟨x2, y2, i2⟩
    simp only at e1 e2 e3 b2 c2
    have : y1 = y2 := by omega
    simp [this, e2, e3]
  have hnd := nodup_fst_of_writes (F := F) (G := G) _ (nodup_prodList w (fun _ => h) p) hFinj
  have hmem : ((ry, h - 1 - cx, i) : ℕ × ℕ × ℕ)
      ∈ prodList w (fun _ => h) p :=
    mem_prodList.mpr ⟨hry, by show h - 1 - cx < h; omega, hi⟩
  have hq : (F (ry, h - 1 - cx, i), G (ry, h - 1 - cx, i))
      ∈ (prodList w (fun _ => h) p).map (fun t => (F t, G t)) :=
    List.mem_map.mpr ⟨_, hmem, rfl⟩
  have ef : F (ry, h - 1 - cx, i) = pix h p cx ry i := by
    simp only [hF, pix]
    have e1 : h - 1 - (h - 1 - cx) = cx := by omega
    rw [e1]
    ring
  have hlt : (F (ry, h - 1 - cx, i), G (ry, h - 1 - cx, i)).1
      < (List.replicate (w * h * p) (0 : ℕ)).length := by
    rw [List.length_replicate]
    show F (ry, h - 1 - cx, i) < w * h * p
    rw [ef]
    have hb := idx_bound (w := h) (h := w) (p := p) hcx hry hi
    have e1 : pix h p cx ry i = cx * p + ry * (h * p) + i := rfl
    have e2 : h * w * p = w * h * p := by ring
    omega
  have h2 := applyWrites_getD_mem buf _ _ _ hnd hq hlt
  rw [ef] at h2
  exact h2

/-! #### Abstract coordinate semantics of `change_orientation` -/

/-- Dimensions of the frame after applying an orientation. -/
def dimsAfter (o : Orientation) (w h : ℕ) : ℕ × ℕ :=
  match o.rotate with
  | .R0 => (w, h)
  | .R180 => (w, h)
  | .R90 => (h, w)
  | .R270 => (h, w)

/-- Source pixel coordinate (column, row) in the original `w × h` image
holding the value of target coordinate `c` after applying orientation
`o` (mirror first, then rotation). -/
def coordMap (o : Orientation) (w h : ℕ) (c : ℕ × ℕ) : ℕ × ℕ :=
  let m : ℕ × ℕ :=
    match o.rotate with
    | .R0 => (c.1, c.2)
    | .R90 => (w - 1 - c.2, c.1)
    | .R180 => (w - 1 - c.1, h - 1 - c.2)
    | .R270 => (c.2, h - 1 - c.1)
  if o.mirror then (w - 1 - m.1, m.2) else m

theorem changeOrientation_unfold_mirror (buf : List ℕ)
    (frame : EditingFrame) (r : Rotation) :
    changeOrientation buf frame ⟨true, r⟩
      = changeOrientation
          (applySwaps (mirrorPairs frame.width frame.height frame.stride
            frame.memoryFormat.nBytes) buf) frame ⟨false, r⟩ := by
  cases r <;> rfl

theorem changeOrientation_R0 (buf : List ℕ) (frame : EditingFrame) :
    changeOrientation buf frame ⟨false, .R0⟩ = (frame, buf) := rfl

theorem changeOrientation_R90 (buf : List ℕ) (frame : EditingFrame) :
    changeOrientation buf frame ⟨false, .R90⟩
      = ({ frame with
            width := frame.height, height := frame.width,
            stride := u32cast (frame.height * frame.memoryFormat.nBytes) },
         applyWrites buf
           (rot90Writes frame.width frame.height frame.stride
             frame.memoryFormat.nBytes)
           (List.replicate
             (frame.width * frame.height * frame.memoryFormat.nBytes) 0)) :=
  rfl

theorem changeOrientation_R180 (buf : List ℕ) (frame : EditingFrame) :
    changeOrientation buf frame ⟨false, .R180⟩
      = (frame,
         applySwaps (rot180Pairs frame.width frame.height frame.stride
           frame.memoryFormat.nBytes) buf) := rfl

theorem changeOrientation_R270 (buf : List ℕ) (frame : EditingFrame) :
    changeOrientation buf frame ⟨false, .R270⟩
      = ({ frame with
            width := frame.height, height := frame.width,
            stride := u32cast (frame.height * frame.memoryFormat.nBytes) },
         applyWrites buf
           (rot270Writes frame.width frame.height frame.stride
             frame.memoryFormat.nBytes)
           (List.replicate
             (frame.width * frame.height * frame.memoryFormat.nBytes) 0)) :=
  rfl

theorem changeOrientation_spec (o : Orientation) (frame : EditingFrame)
    (buf : List ℕ)
    (hs : frame.stride = frame.width * frame.memoryFormat.nBytes)
    (hl : buf.length
      = frame.width * frame.height * frame.memoryFormat.nBytes)
    (hcap : frame.height * frame.memoryFormat.nBytes ≤ u32Max) :
    (changeOrientation buf frame o).1
      = ⟨(dimsAfter o frame.width frame.height).1,
         (dimsAfter o frame.width frame.height).2,
         (dimsAfter o frame.width frame.height).1 * frame.memoryFormat.nBytes,
         frame.memoryFormat⟩
    ∧ (changeOrientation buf frame o).2.length
      = (dimsAfter o frame.width frame.height).1
          * (dimsAfter o frame.width frame.height).2
          * frame.memoryFormat.nBytes
    ∧ ∀ cx ry i, cx < (dimsAfter o frame.width frame.height).1
        → ry < (dimsAfter o frame.width frame.height).2
        → i < frame.memoryFormat.nBytes
        → (changeOrientation buf frame o).2.getD
            (pix (dimsAfter o frame.width frame.height).1
              frame.memoryFormat.nBytes cx ry i) 0
          = buf.getD
              (pix frame.width frame.memoryFormat.nBytes
                (coordMap o frame.width frame.height (cx, ry)).1
                (coordMap o frame.width frame.height (cx, ry)).2 i) 0 := by
  rcases frame with ⟨w, h, s, fmt⟩
  simp only at hs hl hcap
  subst hs
  set p := fmt.nBytes with hp
  have hcast : u32cast (h * p) = h * p := by
    have hlt : h * p < 4294967296 := by
      have he : u32Max = 4294967295 := rfl
      omega
    exact Nat.mod_eq_of_lt hlt
  rcases o with ⟨m, r⟩
  cases m
  case false =>
    cases r
    case R0 =>
      rw [changeOrientation_R0]
      exact ⟨rfl, hl, fun cx ry i _ _ _ => rfl⟩
    case R90 =>
      rw [changeOrientation_R90]
      refine ⟨?_, ?_, ?_⟩
      · show EditingFrame.mk h w (u32cast (h * p)) fmt = _
        rw [hcast]
        rfl
      · show (applyWrites _ _ _).length = h * w * p
        rw [applyWrites_length, List.length_replicate]
        ring
      · intro cx ry i hcx hry hi
        exact rot90_loop_getD w h p buf hcx hry hi
    case R180 =>
      rw [changeOrientation_R180]
      refine ⟨rfl, ?_, ?_⟩
      · show (applySwaps _ _).length = w * h * p
        rw [applySwaps_length]
        exact hl
      · intro cx ry i hcx hry hi
        exact rot180_loop_getD w h p buf hl hcx hry hi
    case R270 =>
      rw [changeOrientation_R270]
      refine ⟨?_, ?_, ?_⟩
      · show EditingFrame.mk h w (u32cast (h * p)) fmt = _
        rw [hcast]
        rfl
      · show (applyWrites _ _ _).length = h * w * p
        rw [applyWrites_length, List.length_replicate]
        ring
      · intro cx ry i hcx hry hi
        exact rot270_loop_getD w h p buf hcx hry hi
  case true =>
    have hmlen : (applySwaps (mirrorPairs w h (w * p) p) buf).length
        = w * h * p := by
      rw [applySwaps_length]
      exact hl
    cases r
    case R0 =>
      rw [changeOrientation_unfold_mirror, changeOrientation_R0]
      refine ⟨rfl, hmlen, ?_⟩
      intro cx ry i hcx hry hi
      exact mirror_loop_getD w h p buf hl hcx hry hi
    case R90 =>
      rw [changeOrientation_unfold_mirror, changeOrientation_R90]
      refine ⟨?_, ?_, ?_⟩
      · show EditingFrame.mk h w (u32cast (h * p)) fmt = _
        rw [hcast]
        rfl
      · show (applyWrites _ _ _).length = h * w * p
        rw [applyWrites_length, List.length_replicate]
        ring
      · intro cx ry i hcx hry hi
        have hcx' : cx < h := hcx
        have hry' : ry < w := hry
        exact (rot90_loop_getD w h p
            (applySwaps (mirrorPairs w h (w * p) p) buf) hcx' hry' hi).trans
          (mirror_loop_getD w h p buf hl (by omega) hcx' hi)
    case R180 =>
      rw [changeOrientation_unfold_mirror, changeOrientation_R180]
      refine ⟨rfl, ?_, ?_⟩
      · show (applySwaps _ _).length = w * h * p
        rw [applySwaps_length]
        exact hmlen
      · intro cx ry i hcx hry hi
        have hcx' : cx < w := hcx
        have hry' : ry < h := hry
        exact (rot180_loop_getD w h p
            (applySwaps (mirrorPairs w h (w * p) p) buf) hmlen hcx' hry'
            hi).trans
          (mirror_loop_getD w h p buf hl (by omega) (by omega) hi)
    case R270 =>
      rw [changeOrientation_unfold_mirror, changeOrientation_R270]
      refine ⟨?_, ?_, ?_⟩
      · show EditingFrame.mk h w (u32cast (h * p)) fmt = _
        rw [hcast]
        rfl
      · show (applyWrites _ _ _).length = h * w * p
        rw [applyWrites_length, List.length_replicate]
        ring
      · intro cx ry i hcx hry hi
        have hcx' : cx < h := hcx
        have hry' : ry < w := hry
        exact (rot270_loop_getD w h p
            (applySwaps (mirrorPairs w h (w * p) p) buf) hcx' hry' hi).trans
          (mirror_loop_getD w h p buf hl hry' (by omega) hi)

/-! #### Composition of orientations at the coordinate level -/

theorem coordMap_lt (o : Orientation) (w h cx ry : ℕ)
    (hcx : cx < (dimsAfter o w h).1) (hry : ry < (dimsAfter o w h).2) :
    (coordMap o w h (cx, ry)).1 < w ∧ (coordMap o w h (cx, ry)).2 < h := by
  rcases o with ⟨m, k⟩
  cases m <;> cases k <;>
    simp only [coordMap, dimsAfter] at * <;>
    simp_all <;> omega

theorem dimsAfter_addRotation (o : Orientation) (r : Rotation) (w h : ℕ) :
    dimsAfter (o.addRotation r) w h
      = dimsAfter ⟨false, r⟩ (dimsAfter o w h).1 (dimsAfter o w h).2 := by
  rcases o with ⟨m, k⟩
  cases k <;> cases r <;> rfl

theorem dimsAfter_addMirrorHorizontally (o : Orientation) (w h : ℕ) :
    dimsAfter o.addMirrorHorizontally w h
      = dimsAfter ⟨true, .R0⟩ (dimsAfter o w h).1 (dimsAfter o w h).2 := by
  rcases o with ⟨m, k⟩
  cases k <;>
    simp +decide [Orientation.addMirrorHorizontally, Rotation.toF,
      Rotation.ofF, dimsAfter]

theorem dimsAfter_addMirrorVertically (o : Orientation) (w h : ℕ) :
    dimsAfter o.addMirrorVertically w h
      = dimsAfter ⟨true, .R180⟩ (dimsAfter o w h).1 (dimsAfter o w h).2 := by
  rcases o with ⟨m, k⟩
  cases k <;>
    simp +decide [Orientation.addMirrorVertically, Rotation.toF,
      Rotation.ofF, dimsAfter]

theorem coordMap_addRotation (o : Orientation) (r : Rotation) (w h cx ry : ℕ)
    (hcx : cx < (dimsAfter (o.addRotation r) w h).1)
    (hry : ry < (dimsAfter (o.addRotation r) w h).2) :
    coordMap (o.addRotation r) w h (cx, ry)
      = coordMap o w h
          (coordMap ⟨false, r⟩ (dimsAfter o w h).1 (dimsAfter o w h).2
            (cx, ry)) := by
  rcases o with ⟨m, k⟩
  cases m <;> cases k <;> cases r <;>
    simp +decide [Orientation.addRotation, Rotation.toF, Rotation.ofF,
      coordMap, dimsAfter, Prod.ext_iff] at * <;>
    omega

theorem coordMap_addMirrorHorizontally (o : Orientation) (w h cx ry : ℕ)
    (hcx : cx < (dimsAfter o.addMirrorHorizontally w h).1)
    (hry : ry < (dimsAfter o.addMirrorHorizontally w h).2) :
    coordMap o.addMirrorHorizontally w h (cx, ry)
      = coordMap o w h
          (coordMap ⟨true, .R0⟩ (dimsAfter o w h).1 (dimsAfter o w h).2
            (cx, ry)) := by
  rcases o with ⟨m, k⟩
  cases m <;> cases k <;>
    simp +decide [Orientation.addMirrorHorizontally, Rotation.toF,
      Rotation.ofF, coordMap, dimsAfter, Prod.ext_iff] at * <;>
    omega

theorem coordMap_addMirrorVertically (o : Orientation) (w h cx ry : ℕ)
    (hcx : cx < (dimsAfter o.addMirrorVertically w h).1)
    (hry : ry < (dimsAfter o.addMirrorVertically w h).2) :
    coordMap o.addMirrorVertically w h (cx, ry)
      = coordMap o w h
          (coordMap ⟨true, .R180⟩ (dimsAfter o w h).1 (dimsAfter o w h).2
            (cx, ry)) := by
  rcases o with ⟨m, k⟩
  cases m <;> cases k <;>
    simp +decide [Orientation.addMirrorVertically, Rotation.toF,
      Rotation.ofF, coordMap, dimsAfter, Prod.ext_iff] at * <;>
    omega

/-- Key composition property: on a tightly strided buffer, applying
orientation `o` with `change_orientation` and then a further orientation
`g` produces exactly the frame and buffer of the composite orientation
`c`, provided `c`, `g`, `o` satisfy the coordinate-level composition
laws. -/
theorem changeOrientation_chain (o g c : Orientation) (frame : EditingFrame)
    (buf : List ℕ)
    (hdims : dimsAfter c frame.width frame.height
      = dimsAfter g (dimsAfter o frame.width frame.height).1
          (dimsAfter o frame.width frame.height).2)
    (hcoord : ∀ cx ry,
      cx < (dimsAfter c frame.width frame.height).1
      → ry < (dimsAfter c frame.width frame.height).2
      → coordMap c frame.width frame.height (cx, ry)
          = coordMap o frame.width frame.height
              (coordMap g (dimsAfter o frame.width frame.height).1
                (dimsAfter o frame.width frame.height).2 (cx, ry)))
    (hs : frame.stride = frame.width * frame.memoryFormat.nBytes)
    (hl : buf.length
      = frame.width * frame.height * frame.memoryFormat.nBytes)
    (hw : frame.width * frame.memoryFormat.nBytes ≤ u32Max)
    (hh : frame.height * frame.memoryFormat.nBytes ≤ u32Max) :
    changeOrientation (changeOrientation buf frame o).2
        (changeOrientation buf frame o).1 g
      = changeOrientation buf frame c := by
  rcases frame with ⟨w, h, s, fmt⟩
  simp only at hdims hcoord hs hl hw hh
  subst hs
  have hcapH1 : (dimsAfter o w h).2 * fmt.nBytes ≤ u32Max := by
    rcases o with ⟨m, k⟩
    cases k <;> simp only [dimsAfter] <;> assumption
  rcases changeOrientation_spec o ⟨w, h, w * fmt.nBytes, fmt⟩ buf rfl hl hh
    with ⟨hf1, hlen1, hpt1⟩
  simp only at hf1 hlen1 hpt1
  rcases hCO1 : changeOrientation buf ⟨w, h, w * fmt.nBytes, fmt⟩ o
    with ⟨F1, B1⟩
  rw [hCO1] at hf1 hlen1 hpt1
  simp only at hf1 hlen1 hpt1
  subst hf1
  rcases changeOrientation_spec g
    ⟨(dimsAfter o w h).1, (dimsAfter o w h).2,
      (dimsAfter o w h).1 * fmt.nBytes, fmt⟩ B1 rfl hlen1 hcapH1
    with ⟨hf2, hlen2, hpt2⟩
  simp only at hf2 hlen2 hpt2
  rcases changeOrientation_spec c ⟨w, h, w * fmt.nBytes, fmt⟩ buf rfl hl hh
    with ⟨hf3, hlen3, hpt3⟩
  simp only at hf3 hlen3 hpt3
  have hgd : dimsAfter g (dimsAfter o w h).1 (dimsAfter o w h).2
      = dimsAfter c w h := hdims.symm
  refine Prod.ext ?_ ?_
  · rw [hf2, hf3, hgd]
  · have hlenA : (changeOrientation B1
        ⟨(dimsAfter o w h).1, (dimsAfter o w h).2,
          (dimsAfter o w h).1 * fmt.nBytes, fmt⟩ g).2.length
        = (dimsAfter c w h).1 * (dimsAfter c w h).2 * fmt.nBytes := by
      rw [hlen2, hgd]
    refine List.ext_getElem (by rw [hlenA, hlen3]) ?_
    intro j hjA hjB
    have hj : j < (dimsAfter c w h).1 * (dimsAfter c w h).2 * fmt.nBytes := by
      rw [← hlenA]; exact hjA
    rcases idx_surj j hj with ⟨cx, ry, i, hcx, hry, hi, rfl⟩
    rw [← List.getD_eq_getElem _ 0 hjA, ← List.getD_eq_getElem _ 0 hjB]
    have hcx2 : cx < (dimsAfter g (dimsAfter o w h).1 (dimsAfter o w h).2).1 := by
      rw [hgd]; exact hcx
    have hry2 : ry < (dimsAfter g (dimsAfter o w h).1 (dimsAfter o w h).2).2 := by
      rw [hgd]; exact hry
    have stepA := hpt2 cx ry i hcx2 hry2 hi
    have epixA : pix (dimsAfter g (dimsAfter o w h).1 (dimsAfter o w h).2).1
        fmt.nBytes cx ry i
        = cx * fmt.nBytes + ry * ((dimsAfter c w h).1 * fmt.nBytes) + i := by
      rw [hgd]
      rfl
    rw [epixA] at stepA
    have hqlt := coordMap_lt g (dimsAfter o w h).1 (dimsAfter o w h).2
      cx ry hcx2 hry2
    have stepB := hpt1
      (coordMap g (dimsAfter o w h).1 (dimsAfter o w h).2 (cx, ry)).1
      (coordMap g (dimsAfter o w h).1 (dimsAfter o w h).2 (cx, ry)).2
      i hqlt.1 hqlt.2 hi
    have stepC := hpt3 cx ry i hcx hry hi
    have epixC : pix (dimsAfter c w h).1 fmt.nBytes cx ry i
        = cx * fmt.nBytes + ry * ((dimsAfter c w h).1 * fmt.nBytes) + i := rfl
    rw [epixC] at stepC
    have hcc : coordMap c w h (cx, ry)
        = coordMap o w h
            ((coordMap g (dimsAfter o w h).1 (dimsAfter o w h).2 (cx, ry)).1,
             (coordMap g (dimsAfter o w h).1 (dimsAfter o w h).2 (cx, ry)).2) := by
      rw [hcoord cx ry hcx hry]
    rw [stepA, stepB, stepC, hcc]
/-! #### `apply_operations`, from `src/glycin-utils/src/editing/operations.rs` -/

/-- `editing::Error` (`glycin-utils/src/editing.rs`), collapsed to the
variants reachable from the embedded functions. -/
inductive EditingError
  | io
  | math
  | unknownOperation
  deriving DecidableEq, Repr

/-- The cursor loop of `clip` (`editing/clip.rs`): for each row seek by
`x` bytes, read one row, append it, then seek by
`stride - x_ - width_` (relative seeks below position zero and reads past
the end of the buffer are I/O errors).  `pos` is the cursor position. -/
def clipRows (buf : List ℕ) (xOff rowLen stride : ℕ) :
    ℕ → ℤ → List ℕ → Except EditingError (List ℕ)
  | 0, _, acc => .ok acc
  | n + 1, pos, acc =>
    let pos1 := pos + xOff
    if pos1 < 0 then .error .io
    else if buf.length < pos1.toNat + rowLen then .error .io
    else
      let row := (buf.drop pos1.toNat).take rowLen
      let pos2 := pos1 + rowLen + ((stride : ℤ) - xOff - rowLen)
      if pos2 < 0 then .error .io
      else clipRows buf xOff rowLen stride n pos2 (acc ++ row)

/-- `clip` (`editing/clip.rs`): clamp the clip rectangle to the frame,
check the arithmetic, copy the clipped rows into a fresh tightly strided
buffer and update the frame dimensions. -/
def clip (buf : List ℕ) (frame : EditingFrame) (c : ℕ × ℕ × ℕ × ℕ) :
    Except EditingError (EditingFrame × List ℕ) :=
  let (x, y, width, height) := c
  let pixelSize := frame.memoryFormat.nBytes
  if x > frame.width then .error .math
  else if y > frame.height then .error .math
  else
    let width := min width (frame.width - x)
    let height := min height (frame.height - y)
    if width * pixelSize > u32Max then .error .math
    else
      let newStride := width * pixelSize
      if height * newStride > usizeMax then .error .math
      else
        match clipRows buf (x * pixelSize) (width * pixelSize) frame.stride
          height (y * frame.stride) [] with
        | .error e => .error e
        | .ok new =>
          .ok
            ({ frame with
                width := width
                height := height
                stride := newStride },
             new)

/-- Whether an operation is a `Clip`. -/
def Operation.isClip : Operation → Bool
  | .Clip _ => true
  | _ => false

/-- `apply_operations` (`editing/operations.rs`): apply each operation of
the list in order — rotations and mirrors through `change_orientation`
with the generator orientations `Orientation::new(false, r)`,
`Orientation::new(true, _0)` and `Orientation::new(true, _180)`, clips
through `clip`.  (The wildcard arm returning `UnknownOperation` is
unreachable for the closed operation enum.) -/
def applyOperations :
    List Operation → EditingFrame → List ℕ
      → Except EditingError (EditingFrame × List ℕ)
  | [], frame, buf => .ok (frame, buf)
  | .Rotate r :: rest, frame, buf =>
      applyOperations rest
        (changeOrientation buf frame (Orientation.new false r)).1
        (changeOrientation buf frame (Orientation.new false r)).2
  | .MirrorHorizontally :: rest, frame, buf =>
      applyOperations rest
        (changeOrientation buf frame (Orientation.new true .R0)).1
        (changeOrientation buf frame (Orientation.new true .R0)).2
  | .MirrorVertically :: rest, frame, buf =>
      applyOperations rest
        (changeOrientation buf frame (Orientation.new true .R180)).1
        (changeOrientation buf frame (Orientation.new true .R180)).2
  | .Clip c :: rest, frame, buf =>
      match clip buf frame c with
      | .error e => .error e
      | .ok (f', b') => applyOperations rest f' b'

theorem applyOperations_orientationGo (L : List Operation)
    (hnc : ∀ op ∈ L, op.isClip = false) (frame : EditingFrame)
    (buf : List ℕ)
    (hs : frame.stride = frame.width * frame.memoryFormat.nBytes)
    (hl : buf.length
      = frame.width * frame.height * frame.memoryFormat.nBytes)
    (hw : frame.width * frame.memoryFormat.nBytes ≤ u32Max)
    (hh : frame.height * frame.memoryFormat.nBytes ≤ u32Max) :
    ∀ o0 : Orientation, ∃ o, orientationGo o0 L = some o
      ∧ applyOperations L (changeOrientation buf frame o0).1
          (changeOrientation buf frame o0).2
        = .ok (changeOrientation buf frame o) := by
  induction L with
  | nil => exact fun o0 => ⟨o0, rfl, rfl⟩
  | cons op rest ih =>
    intro o0
    have hnc' : ∀ q ∈ rest, q.isClip = false :=
      fun q hq => hnc q (List.mem_cons_of_mem _ hq)
    cases op with
    | Clip c =>
      have := hnc (.Clip c) (List.mem_cons_self _ _)
      simp [Operation.isClip] at this
    | MirrorHorizontally =>
      have hcomp := changeOrientation_chain o0 ⟨true, .R0⟩
        o0.addMirrorHorizontally frame buf
        (dimsAfter_addMirrorHorizontally o0 frame.width frame.height)
        (fun cx ry hcx hry =>
          coordMap_addMirrorHorizontally o0 frame.width frame.height cx ry
            hcx hry)
        hs hl hw hh
      rcases ih hnc' o0.addMirrorHorizontally with ⟨o, ho, happ⟩
      refine ⟨o, ho, ?_⟩
      show applyOperations rest
        (changeOrientation (changeOrientation buf frame o0).2
          (changeOrientation buf frame o0).1 (Orientation.new true .R0)).1
        (changeOrientation (changeOrientation buf frame o0).2
          (changeOrientation buf frame o0).1 (Orientation.new true .R0)).2
        = _
      rw [show Orientation.new true Rotation.R0 = ⟨true, .R0⟩ from rfl, hcomp]
      exact happ
    | MirrorVertically =>
      have hcomp := changeOrientation_chain o0 ⟨true, .R180⟩
        o0.addMirrorVertically frame buf
        (dimsAfter_addMirrorVertically o0 frame.width frame.height)
        (fun cx ry hcx hry =>
          coordMap_addMirrorVertically o0 frame.width frame.height cx ry
            hcx hry)
        hs hl hw hh
      rcases ih hnc' o0.addMirrorVertically with ⟨o, ho, happ⟩
      refine ⟨o, ho, ?_⟩
      show applyOperations rest
        (changeOrientation (changeOrientation buf frame o0).2
          (changeOrientation buf frame o0).1 (Orientation.new true .R180)).1
        (changeOrientation (changeOrientation buf frame o0).2
          (changeOrientation buf frame o0).1 (Orientation.new true .R180)).2
        = _
      rw [show Orientation.new true Rotation.R180 = ⟨true, .R180⟩ from rfl,
        hcomp]
      exact happ
    | Rotate r =>
      have hcomp := changeOrientation_chain o0 ⟨false, r⟩
        (o0.addRotation r) frame buf
        (dimsAfter_addRotation o0 r frame.width frame.height)
        (fun cx ry hcx hry =>
          coordMap_addRotation o0 r frame.width frame.height cx ry hcx hry)
        hs hl hw hh
      rcases ih hnc' (o0.addRotation r) with ⟨o, ho, happ⟩
      refine ⟨o, ho, ?_⟩
      show applyOperations rest
        (changeOrientation (changeOrientation buf frame o0).2
          (changeOrientation buf frame o0).1 (Orientation.new false r)).1
        (changeOrientation (changeOrientation buf frame o0).2
          (changeOrientation buf frame o0).1 (Orientation.new false r)).2
        = _
      rw [show Orientation.new false r = ⟨false, r⟩ from rfl, hcomp]
      exact happ

/-- C7: for every operation list `L` without `Clip` on a tightly strided
pixel buffer, `Operations::orientation` reduces `L` to a single canonical
orientation, and applying that orientation once with
`change_orientation` yields exactly the frame and buffer that applying
each operation of `L` in sequence with `apply_operations` yields.  (The
side conditions require the frame to be consistent: tight stride, buffer
of exactly `width*height*bytes_per_pixel` bytes, and row/column strides
representable in `u32`.) -/
theorem operations_orientation_apply (L : List Operation)
    (frame : EditingFrame) (buf : List ℕ)
    (hnc : ∀ op ∈ L, op.isClip = false)
    (hs : frame.stride = frame.width * frame.memoryFormat.nBytes)
    (hl : buf.length
      = frame.width * frame.height * frame.memoryFormat.nBytes)
    (hw : frame.width * frame.memoryFormat.nBytes ≤ u32Max)
    (hh : frame.height * frame.memoryFormat.nBytes ≤ u32Max) :
    ∃ o, (Operations.mk L []).orientation = some o
      ∧ applyOperations L frame buf
        = .ok (changeOrientation buf frame o) := by
  rcases applyOperations_orientationGo L hnc frame buf hs hl hw hh
    Orientation.id with ⟨o, ho, happ⟩
  exact ⟨o, ho, happ⟩

/-- Witness for `operations_orientation_apply`: mirroring and then
rotating a 2×1 `G8` image, in sequence or via the reduced orientation,
gives the same frame and buffer. -/
theorem operations_orientation_apply_witness :
    ((∀ op ∈ ([Operation.MirrorHorizontally,
        Operation.Rotate .R90] : List Operation), op.isClip = false)
      ∧ (2 : ℕ) = 2 * (ExtendedMemoryFormat.basic .G8).nBytes)
    ∧ ∃ o, (Operations.mk
          [Operation.MirrorHorizontally, Operation.Rotate .R90]
          []).orientation = some o
        ∧ applyOperations
            [Operation.MirrorHorizontally, Operation.Rotate .R90]
            ⟨2, 1, 2, .basic .G8⟩ [10, 20]
          = .ok (changeOrientation [10, 20] ⟨2, 1, 2, .basic .G8⟩ o) :=
  ⟨⟨by decide, by decide⟩,
   operations_orientation_apply
     [Operation.MirrorHorizontally, Operation.Rotate .R90]
     ⟨2, 1, 2, .basic .G8⟩ [10, 20]
     (by decide) (by decide) (by decide) (by decide) (by decide)⟩

/-! #### Forward-compatible decoding of operation lists
(`operations.rs`, `OperationsIntermediate` / `MaybeOperation`)

The message-pack byte codec itself is the external `rmp_serde` crate;
decoding is embedded at the `OperationsIntermediate` level: each list
element either decodes to a known `Operation` or is preserved as
`MaybeOperation::Unknown` carrying the decode-error string (this is
exactly what the custom `Deserialize` impl of `MaybeOperation`
produces). -/

/-- `enum MaybeOperation` from `operations.rs`. -/
inductive MaybeOperation
  | operation (op : Operation)
  | unknown (s : String)
  deriving DecidableEq, Repr

/-- `MaybeOperation::operation`. -/
def MaybeOperation.operationOf : MaybeOperation → Option Operation
  | .operation op => some op
  | .unknown _ => none

/-- `MaybeOperation::unknown`. -/
def MaybeOperation.unknownOf : MaybeOperation → Option String
  | .operation _ => none
  | .unknown s => some s

/-- `impl From<OperationsIntermediate> for Operations`: keep the known
operations in order and collect the unknown entries in the sidecar
list. -/
def operationsFromIntermediate (l : List MaybeOperation) : Operations where
  operations := l.filterMap MaybeOperation.operationOf
  unknownOperations := l.filterMap MaybeOperation.unknownOf

theorem filterMap_operationOf_map (l : List Operation) :
    List.filterMap (MaybeOperation.operationOf ∘ MaybeOperation.operation) l
      = l := by
  induction l with
  | nil => rfl
  | cons q rest ih =>
    simp [List.filterMap_cons, MaybeOperation.operationOf, Function.comp, ih]

theorem filterMap_unknownOf_map (l : List Operation) :
    List.filterMap (MaybeOperation.unknownOf ∘ MaybeOperation.operation) l
      = [] := by
  induction l with
  | nil => rfl
  | cons q rest ih =>
    simp [List.filterMap_cons, MaybeOperation.unknownOf, Function.comp, ih]

/-- C8: decoding the serialized list
`[MirrorHorizontally, Rotate 90, Clip(1,2,3,4)]` with one unknown
operation inserted anywhere yields an `Operations` whose `operations()`
are exactly the three known operations in their original order and whose
`unknown_operations()` has exactly the one unknown entry; the unknown
operation is preserved but can never be applied, because
`apply_operations` consumes only `operations()`. -/
theorem operations_decode_with_unknown (u : String)
    (pre post : List Operation)
    (hsplit : pre ++ post
      = [Operation.MirrorHorizontally, Operation.Rotate .R90,
         Operation.Clip (1, 2, 3, 4)]) :
    (operationsFromIntermediate
        (pre.map MaybeOperation.operation ++ [MaybeOperation.unknown u]
          ++ post.map MaybeOperation.operation)).operations
      = [Operation.MirrorHorizontally, Operation.Rotate .R90,
         Operation.Clip (1, 2, 3, 4)]
    ∧ (operationsFromIntermediate
        (pre.map MaybeOperation.operation ++ [MaybeOperation.unknown u]
          ++ post.map MaybeOperation.operation)).unknownOperations = [u]
    ∧ ∀ frame buf,
        applyOperations
          (operationsFromIntermediate
            (pre.map MaybeOperation.operation ++ [MaybeOperation.unknown u]
              ++ post.map MaybeOperation.operation)).operations frame buf
        = applyOperations (pre ++ post) frame buf := by
  have hops : (operationsFromIntermediate
      (pre.map MaybeOperation.operation ++ [MaybeOperation.unknown u]
        ++ post.map MaybeOperation.operation)).operations = pre ++ post := by
    simp [operationsFromIntermediate, List.filterMap_append,
      List.filterMap_map, filterMap_operationOf_map,
      MaybeOperation.operationOf]
  refine ⟨by rw [hops, hsplit], ?_, ?_⟩
  · simp [operationsFromIntermediate, List.filterMap_append,
      List.filterMap_map, filterMap_unknownOf_map,
      MaybeOperation.unknownOf]
  · intro frame buf
    rw [hops]

/-- Witness for `operations_decode_with_unknown` at the split after the
first operation. -/
theorem operations_decode_with_unknown_witness :
    ([Operation.MirrorHorizontally]
        ++ [Operation.Rotate .R90, Operation.Clip (1, 2, 3, 4)]
      = [Operation.MirrorHorizontally, Operation.Rotate .R90,
         Operation.Clip (1, 2, 3, 4)])
    ∧ ((operationsFromIntermediate
          ([Operation.MirrorHorizontally].map MaybeOperation.operation
            ++ [MaybeOperation.unknown "future-op"]
            ++ [Operation.Rotate .R90,
                Operation.Clip (1, 2, 3, 4)].map
                  MaybeOperation.operation)).operations
        = [Operation.MirrorHorizontally, Operation.Rotate .R90,
           Operation.Clip (1, 2, 3, 4)]
      ∧ (operationsFromIntermediate
          ([Operation.MirrorHorizontally].map MaybeOperation.operation
            ++ [MaybeOperation.unknown "future-op"]
            ++ [Operation.Rotate .R90,
                Operation.Clip (1, 2, 3, 4)].map
                  MaybeOperation.operation)).unknownOperations
        = ["future-op"]
      ∧ ∀ frame buf,
          applyOperations
            (operationsFromIntermediate
              ([Operation.MirrorHorizontally].map MaybeOperation.operation
                ++ [MaybeOperation.unknown "future-op"]
                ++ [Operation.Rotate .R90,
                    Operation.Clip (1, 2, 3, 4)].map
                      MaybeOperation.operation)).operations frame buf
          = applyOperations
              ([Operation.MirrorHorizontally]
                ++ [Operation.Rotate .R90, Operation.Clip (1, 2, 3, 4)])
              frame buf) :=
  ⟨by decide,
   operations_decode_with_unknown "future-op" [Operation.MirrorHorizontally]
     [Operation.Rotate .R90, Operation.Clip (1, 2, 3, 4)] (by decide)⟩

/-! ### The frame request pipeline, from `src/glycin/src/dbus.rs`
(`RemoteProcess::request_frame`, `validate_frame`,
`remove_stride_if_needed`) and its helpers

The worker's frame response (`glycin-utils/src/dbus_types.rs`,
`struct Frame`) is embedded as its dimension fields plus the texture
byte list (the content of the texture file descriptor); the presence of
a parseable CICP tuple and of a readable ICC profile in the frame
details are booleans.  The in-place ICC conversion
(`icc::apply_transformation`, external lcms2 arithmetic) is an abstract
length-preserving buffer transformation; the per-byte content of the
memory-format conversion (f32 arithmetic in the generic path) is an
abstract `fill` function — only its length and dimension behaviour,
which the claims are about, is concrete. -/

/-- `i32::MAX`. -/
def i32Max : ℕ := 2147483647

/-- `i64::MAX`. -/
def i64Max : ℕ := 9223372036854775807

/-- `MAX_TEXTURE_SIZE` (`dbus.rs`): `8 * 10u64.pow(9)`. -/
def MAX_TEXTURE_SIZE : ℕ := 8 * 10 ^ 9

/-- The dimension fields of the worker frame response
(`glycin-utils/src/dbus_types.rs`, `struct Frame`); all of `width`,
`height`, `stride` are `u32`. -/
structure Frame where
  width : ℕ
  height : ℕ
  stride : ℕ
  memoryFormat : MemoryFormat
  deriving DecidableEq, Repr

/-- `Frame::n_bytes`: `stride * height` with checked `usize`
multiplication. -/
def Frame.nBytes (f : Frame) : Option ℕ :=
  SafeMath.Usize.smul f.stride f.height

/-- The host error variants reachable from the embedded pipeline
(`glycin/src/error.rs`; `WidgthOrHeightZero` is the source spelling). -/
inductive Error
  | textureWrongSize
  | strideTooSmall
  | widgthOrHeightZero
  | textureTooLarge
  | conversionTooLargerError
  deriving DecidableEq, Repr

/-- `validate_frame` (`dbus.rs`): the declared geometry is checked
against the mapped texture length, in source order — texture at least
`n_bytes`, stride at least `width*bytes_per_pixel`, nonzero dimensions,
the 8 GB hard cap on `stride*height`, and representability of the
dimensions as `i32`. -/
def validateFrame (frame : Frame) (imgBufLen : ℕ) : Except Error Unit :=
  match frame.nBytes with
  | none => .error .conversionTooLargerError
  | some nB =>
    if imgBufLen < nB then .error .textureWrongSize
    else
      match SafeMath.U32.smul frame.width frame.memoryFormat.nBytes with
      | none => .error .conversionTooLargerError
      | some wb =>
        if frame.stride < wb then .error .strideTooSmall
        else if frame.width < 1 ∨ frame.height < 1 then
          .error .widgthOrHeightZero
        else
          match SafeMath.U64.smul frame.stride frame.height with
          | none => .error .conversionTooLargerError
          | some sh =>
            if sh > MAX_TEXTURE_SIZE then .error .textureTooLarge
            else if frame.width > i32Max then .error .conversionTooLargerError
            else if frame.height > i32Max then .error .conversionTooLargerError
            else .ok ()

/-- `apply_exif_orientation` (`glycin/src/orientation.rs`): skip when
`transformation_ignore_exif` is set, otherwise run
`change_orientation` on the frame's dimension view (the
`FrameDimensions` impl of `Frame` writes back width, height and stride
and views the memory format as `ExtendedMemoryFormat::Basic`). -/
def applyExifOrientation (buf : List ℕ) (frame : Frame) (ignoreExif : Bool)
    (orientation : Orientation) : Frame × List ℕ :=
  if ignoreExif then
    (frame, buf)
  else
    let r := changeOrientation buf
      ⟨frame.width, frame.height, frame.stride, .basic frame.memoryFormat⟩
      orientation
    ({ frame with
        width := r.1.width
        height := r.1.height
        stride := r.1.stride }, r.2)

/-- `<[u8]>::copy_from_slice` into a byte-list region, one byte at a
time (writes beyond the end are dropped, which cannot happen for the
in-bounds uses below). -/
def setRange (dst : List ℕ) (start : ℕ) (src : List ℕ) : List ℕ :=
  (List.range src.length).foldl
    (fun d i => d.set (start + i) (src.getD i 0)) dst

/-- The row-compaction loop of `remove_stride_if_needed`
(`for row in 1..height`): copy each row from its strided position to its
tightly packed position.  The checked index arithmetic of the source
loop cannot fail for `u32` dimensions on a 64-bit host and is left
implicit. -/
def removeStrideLoop (widthBytes stride height : ℕ) (buf : List ℕ) :
    List ℕ :=
  (List.range' 1 (height - 1)).foldl
    (fun b row =>
      setRange b (row * widthBytes) ((b.drop (row * stride)).take widthBytes))
    buf

/-- `ImgBuf::resize` (`glycin-utils/src/img_buf.rs`): truncate, or pad
with zero bytes (`Vec::resize` / `ftruncate`). -/
def listResize (l : List ℕ) (newLen : ℕ) : List ℕ :=
  if l.length = newLen then l
  else (l.take newLen) ++ List.replicate (newLen - l.length) 0

/-- `remove_stride_if_needed` (`dbus.rs`): because `u32::srem` is
`checked_add`, the early return is taken only when `stride + bpp`
overflows is impossible — the remainder test `== 0` never holds — so the
rows are always compacted to a `width*bpp` stride and the buffer resized
to exactly the new `n_bytes` (`widthBytes * height`, the `n_bytes` of
the updated frame).  The source runs the compaction loop before the
`try_u32` check on the new stride; the loop result is discarded on the
error paths and the loop itself cannot fail, so the checks are written
first here. -/
def removeStrideIfNeeded (buf : List ℕ) (frame : Frame) :
    Except Error (Frame × List ℕ) :=
  match SafeMath.U32.srem frame.stride frame.memoryFormat.nBytes with
  | none => .error .conversionTooLargerError
  | some v =>
    if v = 0 then .ok (frame, buf)
    else
      match SafeMath.Usize.smul frame.width frame.memoryFormat.nBytes with
      | none => .error .conversionTooLargerError
      | some widthBytes =>
        if widthBytes > u32Max then .error .conversionTooLargerError
        else
          match SafeMath.Usize.smul widthBytes frame.height with
          | none => .error .conversionTooLargerError
          | some nB =>
            if nB > i64Max then .error .conversionTooLargerError
            else
              .ok ({ frame with stride := widthBytes },
                listResize
                  (removeStrideLoop widthBytes frame.stride frame.height buf)
                  nB)

/-- `change_memory_format`
(`glycin-utils/src/editing/change_memory_format.rs`), dimension and
length behaviour: unchanged when source equals target; otherwise the
new stride is `width * bpp(target)` (checked `u32`), the new buffer has
exactly `height * new_stride` bytes (checked `usize`), and the frame's
stride and memory format are updated.  The byte content written into
the row slices (fast byte-shuffle paths or the f32 generic path) is
abstracted by `fill`. -/
def changeMemoryFormat (fill : ℕ → ℕ) (buf : List ℕ) (frame : Frame)
    (targetFormat : MemoryFormat) : Except Error (Frame × List ℕ) :=
  if frame.memoryFormat = targetFormat then .ok (frame, buf)
  else
    match SafeMath.U32.smul frame.width targetFormat.nBytes with
    | none => .error .conversionTooLargerError
    | some newStride =>
      match SafeMath.Usize.smul frame.height newStride with
      | none => .error .conversionTooLargerError
      | some newTotalSize =>
        .ok ({ frame with
                stride := newStride
                memoryFormat := targetFormat },
             (List.range newTotalSize).map fill)

/-- `RemoteProcess::request_frame` (`dbus.rs`) after the worker reply:
seal, map the texture, validate, optionally correct the orientation,
apply color handling (CICP wins over ICC; the ICC path first compacts
the stride, then converts in place), optionally convert the memory
format to the best selected one, seal again and return the final frame
with its buffer.  `colorStage` is the color-handling `if`/`else if`
chain of the source, factored out. -/
def colorStage (icc : List ℕ → List ℕ) (hasCicp hasIcc : Bool)
    (fb : Frame × List ℕ) : Except Error (Frame × List ℕ) :=
  if hasCicp then .ok fb
  else if hasIcc then
    match removeStrideIfNeeded fb.2 fb.1 with
    | .error e => .error e
    | .ok r => .ok (r.1, icc r.2)
  else .ok fb

def requestFrame (fill : ℕ → ℕ) (icc : List ℕ → List ℕ)
    (applyTransformations ignoreExif : Bool) (orientation : Orientation)
    (hasCicp hasIcc : Bool) (sel : MemoryFormatSelection.Selection)
    (frame : Frame) (texture : List ℕ) :
    Except Error (Frame × List ℕ) :=
  match validateFrame frame texture.length with
  | .error e => .error e
  | .ok _ =>
    match colorStage icc hasCicp hasIcc
        (if applyTransformations then
          applyExifOrientation texture frame ignoreExif orientation
        else (frame, texture)) with
    | .error e => .error e
    | .ok r =>
      match MemoryFormatSelection.bestFormatFor sel r.1.memoryFormat with
      | none => .ok r
      | some targetFormat => changeMemoryFormat fill r.2 r.1 targetFormat

/-- The stages `request_frame` passes through, in source order: the
texture file descriptor is mapped (`ImgBuf::from_raw_fd`, line 319)
strictly before `validate_frame` runs (line 321). -/
inductive Stage
  | mappedTexture
  | validated
  deriving DecidableEq, Repr

/-- Trace of the mapping and validation stages of `request_frame`. -/
def requestFrameStages (frame : Frame) (texture : List ℕ) : List Stage :=
  Stage.mappedTexture ::
    (match validateFrame frame texture.length with
     | .error _ => []
     | .ok _ => [Stage.validated])

/-- When a frame passes the checks that precede the cap (texture large
enough, stride at least `width*bpp` and representable, nonzero
dimensions) but its `stride*height` exceeds `MAX_TEXTURE_SIZE`,
`validate_frame` fails with `TextureTooLarge`. -/
theorem validateFrame_cap_error (frame : Frame) (len : ℕ)
    (hcap : frame.stride * frame.height > MAX_TEXTURE_SIZE)
    (hfit : frame.stride * frame.height ≤ usizeMax)
    (hlen : frame.stride * frame.height ≤ len)
    (hwb : frame.width * frame.memoryFormat.nBytes ≤ frame.stride)
    (hwbu : frame.width * frame.memoryFormat.nBytes ≤ u32Max)
    (hw : 1 ≤ frame.width) (hh : 1 ≤ frame.height) :
    validateFrame frame len = .error .textureTooLarge := by
  have h1 : frame.nBytes = some (frame.stride * frame.height) := by
    unfold Frame.nBytes SafeMath.Usize.smul
    rw [if_pos hfit]
  have h2 : SafeMath.U32.smul frame.width frame.memoryFormat.nBytes =
      some (frame.width * frame.memoryFormat.nBytes) := by
    unfold SafeMath.U32.smul
    rw [if_pos hwbu]
  have hfit' : frame.stride * frame.height ≤ u64Max := by
    unfold u64Max
    unfold usizeMax at hfit
    exact hfit
  have h3 : SafeMath.U64.smul frame.stride frame.height =
      some (frame.stride * frame.height) := by
    unfold SafeMath.U64.smul
    rw [if_pos hfit']
  simp only [validateFrame, h1, h2, h3]
  rw [if_neg (by omega), if_neg (by omega), if_neg (by omega),
    if_pos (by omega)]

/-- **C2, counterexample.**  The claim asserts that a frame declaring
`stride=4, height=2_147_483_648` fails with `TextureTooLarge` before
any mapping attempt.  In the source the texture is mapped
(`ImgBuf::from_raw_fd`, dbus.rs line 319) strictly before
`validate_frame` runs (line 321), and when that mapping yields fewer
bytes than `stride*height` (here: an empty texture), the texture-size
check fires first, so the request fails with `TextureWrongSize`, not
`TextureTooLarge`. -/
theorem texture_cap_cex :
    requestFrameStages ⟨1, 2147483648, 4, .G8⟩ [] = [.mappedTexture] ∧
    4 * 2147483648 > MAX_TEXTURE_SIZE ∧
    requestFrame id id false false Orientation.id false false
      (fun _ => false) ⟨1, 2147483648, 4, .G8⟩ [] =
      .error .textureWrongSize := by
  refine ⟨rfl, by decide, ?_⟩
  rfl

/-- **C2** (amended).  For every frame whose declared `stride*height`
exceeds the 8 GB cap `MAX_TEXTURE_SIZE`, provided the validation checks
that the source runs first do not fire (the mapped texture holds at
least `stride*height` bytes, `stride ≥ width*bpp` with `width*bpp`
representable in `u32`, and width and height are nonzero), the frame
request fails with `TextureTooLarge` — but only after the texture file
descriptor has been mapped: the stage trace records the mapping and no
completed validation. -/
theorem texture_cap_amended (fill : ℕ → ℕ) (icc : List ℕ → List ℕ)
    (aT iE : Bool) (o : Orientation) (hC hI : Bool)
    (sel : MemoryFormatSelection.Selection) (frame : Frame)
    (texture : List ℕ)
    (hcap : frame.stride * frame.height > MAX_TEXTURE_SIZE)
    (hfit : frame.stride * frame.height ≤ usizeMax)
    (hlen : frame.stride * frame.height ≤ texture.length)
    (hwb : frame.width * frame.memoryFormat.nBytes ≤ frame.stride)
    (hwbu : frame.width * frame.memoryFormat.nBytes ≤ u32Max)
    (hw : 1 ≤ frame.width) (hh : 1 ≤ frame.height) :
    requestFrame fill icc aT iE o hC hI sel frame texture =
      .error .textureTooLarge ∧
    requestFrameStages frame texture = [.mappedTexture] := by
  have hv : validateFrame frame texture.length = .error .textureTooLarge :=
    validateFrame_cap_error frame texture.length hcap hfit hlen hwb hwbu hw hh
  constructor
  · unfold requestFrame
    rw [hv]
  · unfold requestFrameStages
    rw [hv]

/-- Concrete instance of the amended C2 theorem: the frame of the
scenario (`stride=4, height=2_147_483_648, width=1`, one byte per
pixel) over a texture of exactly `stride*height` bytes fails with
`TextureTooLarge`, the texture having been mapped first. -/
theorem texture_cap_amended_witness :
    requestFrame id id false false Orientation.id false false
      (fun _ => false) ⟨1, 2147483648, 4, .G8⟩
      (List.replicate 8589934592 0) = .error .textureTooLarge ∧
    requestFrameStages ⟨1, 2147483648, 4, .G8⟩
      (List.replicate 8589934592 0) = [.mappedTexture] :=
  texture_cap_amended id id false false Orientation.id false false
    (fun _ => false) ⟨1, 2147483648, 4, .G8⟩ (List.replicate 8589934592 0)
    (by decide) (by decide) (by rw [List.length_replicate]; decide)
    (by decide) (by decide) (by decide) (by decide)

/-! ### The buffer/geometry invariant of returned frames -/

/-- Elimination for the checked arithmetic helpers: a successful
checked operation returns its exact value, within bounds. -/
theorem checked_some {x M v : ℕ}
    (h : (if x ≤ M then some x else none) = some v) : v = x ∧ x ≤ M := by
  split at h
  · exact ⟨(Option.some.inj h).symm, by assumption⟩
  · exact Option.noConfusion h

/-- Every memory format occupies at least one byte per pixel. -/
theorem nBytes_pos (f : MemoryFormat) : 1 ≤ f.nBytes := by
  revert f; decide

theorem listResize_length (l : List ℕ) (n : ℕ) :
    (listResize l n).length = n := by
  unfold listResize
  split
  · assumption
  · rw [List.length_append, List.length_take, List.length_replicate]
    omega

/-- A frame accepted by `validate_frame` declares at most the mapped
texture (`stride*height ≤ len`) and a stride covering a full row. -/
theorem validateFrame_ok (frame : Frame) (len : ℕ) (u : Unit)
    (h : validateFrame frame len = .ok u) :
    frame.stride * frame.height ≤ len ∧
    frame.width * frame.memoryFormat.nBytes ≤ frame.stride := by
  unfold validateFrame at h
  split at h
  · exact Except.noConfusion h
  rename_i nB hnb
  split at h
  · exact Except.noConfusion h
  rename_i hlen
  split at h
  · exact Except.noConfusion h
  rename_i wb hwb
  split at h
  · exact Except.noConfusion h
  rename_i hsw
  unfold Frame.nBytes SafeMath.Usize.smul at hnb
  unfold SafeMath.U32.smul at hwb
  obtain ⟨rfl, _⟩ := checked_some hnb
  obtain ⟨rfl, _⟩ := checked_some hwb
  exact ⟨by omega, by omega⟩

/-- The invariant a returned frame–buffer pair satisfies: the buffer
holds at least `stride*height` bytes, and the stride covers a full row
of pixels. -/
def FrameBufInv (fb : Frame × List ℕ) : Prop :=
  fb.1.stride * fb.1.height ≤ fb.2.length ∧
  fb.1.width * fb.1.memoryFormat.nBytes ≤ fb.1.stride

/-- `change_orientation` on a frame with a loose stride: the rotated
frame keeps the memory format, its buffer still holds at least
`stride*height` bytes, and — provided `height*bpp` fits in `u32`, so
that the `(height * pixel_size) as u32` stride computation of the
90°/270° arms does not truncate — the new stride covers a full row.
Mirror-free case. -/
theorem changeOrientation_loose_nomirror (buf : List ℕ)
    (frame : EditingFrame) (r : Rotation)
    (hlen : frame.stride * frame.height ≤ buf.length)
    (hs : frame.width * frame.memoryFormat.nBytes ≤ frame.stride)
    (hcap : frame.height * frame.memoryFormat.nBytes ≤ u32Max) :
    (changeOrientation buf frame ⟨false, r⟩).1.memoryFormat
        = frame.memoryFormat ∧
    (changeOrientation buf frame ⟨false, r⟩).1.stride *
        (changeOrientation buf frame ⟨false, r⟩).1.height ≤
      (changeOrientation buf frame ⟨false, r⟩).2.length ∧
    (changeOrientation buf frame ⟨false, r⟩).1.width *
        (changeOrientation buf frame ⟨false, r⟩).1.memoryFormat.nBytes ≤
      (changeOrientation buf frame ⟨false, r⟩).1.stride := by
  have hcast : u32cast (frame.height * frame.memoryFormat.nBytes)
      = frame.height * frame.memoryFormat.nBytes := by
    unfold u32cast
    unfold u32Max at hcap
    omega
  cases r
  · exact ⟨rfl, hlen, hs⟩
  · simp only [changeOrientation_R90]
    refine ⟨True.intro, ?_, ?_⟩
    · rw [applyWrites_length, List.length_replicate, hcast]
      exact Nat.le_of_eq (by ring)
    · rw [hcast]
  · simp only [changeOrientation_R180]
    refine ⟨True.intro, ?_, hs⟩
    rw [applySwaps_length]
    exact hlen
  · simp only [changeOrientation_R270]
    refine ⟨True.intro, ?_, ?_⟩
    · rw [applyWrites_length, List.length_replicate, hcast]
      exact Nat.le_of_eq (by ring)
    · rw [hcast]

/-- `change_orientation` on a frame with a loose stride, general
orientation. -/
theorem changeOrientation_loose (buf : List ℕ) (frame : EditingFrame)
    (o : Orientation)
    (hlen : frame.stride * frame.height ≤ buf.length)
    (hs : frame.width * frame.memoryFormat.nBytes ≤ frame.stride)
    (hcap : frame.height * frame.memoryFormat.nBytes ≤ u32Max) :
    (changeOrientation buf frame o).1.memoryFormat = frame.memoryFormat ∧
    (changeOrientation buf frame o).1.stride *
        (changeOrientation buf frame o).1.height ≤
      (changeOrientation buf frame o).2.length ∧
    (changeOrientation buf frame o).1.width *
        (changeOrientation buf frame o).1.memoryFormat.nBytes ≤
      (changeOrientation buf frame o).1.stride := by
  rcases o with ⟨m, r⟩
  cases m
  · exact changeOrientation_loose_nomirror buf frame r hlen hs hcap
  · rw [changeOrientation_unfold_mirror]
    refine changeOrientation_loose_nomirror _ frame r ?_ hs hcap
    rw [applySwaps_length]
    exact hlen

/-- The orientation stage of `request_frame` preserves the invariant
(when `height*bpp` fits in `u32`). -/
theorem applyExifOrientation_inv (buf : List ℕ) (frame : Frame)
    (iE : Bool) (o : Orientation) (hinv : FrameBufInv (frame, buf))
    (hcap : frame.height * frame.memoryFormat.nBytes ≤ u32Max) :
    FrameBufInv (applyExifOrientation buf frame iE o) := by
  unfold applyExifOrientation
  split
  · exact hinv
  · obtain ⟨hf, h1, h2⟩ := changeOrientation_loose buf
      ⟨frame.width, frame.height, frame.stride, .basic frame.memoryFormat⟩
      o hinv.1 hinv.2 hcap
    rw [hf] at h2
    exact ⟨h1, h2⟩

/-- `remove_stride_if_needed` always compacts (the `srem`-as-`checked_add`
slip makes the early return unreachable) and returns a tightly packed
frame: the invariant holds unconditionally on success. -/
theorem removeStrideIfNeeded_inv (buf : List ℕ) (frame : Frame)
    (r : Frame × List ℕ) (h : removeStrideIfNeeded buf frame = .ok r) :
    FrameBufInv r := by
  unfold removeStrideIfNeeded at h
  split at h
  · exact Except.noConfusion h
  rename_i v hv
  unfold SafeMath.U32.srem at hv
  obtain ⟨rfl, _⟩ := checked_some hv
  split at h
  · rename_i h0
    have := nBytes_pos frame.memoryFormat
    omega
  split at h
  · exact Except.noConfusion h
  rename_i widthBytes hwB
  split at h
  · exact Except.noConfusion h
  split at h
  · exact Except.noConfusion h
  rename_i nB hnB
  split at h
  · exact Except.noConfusion h
  injection h with h2
  subst h2
  unfold SafeMath.Usize.smul at hwB hnB
  obtain ⟨rfl, _⟩ := checked_some hwB
  obtain ⟨rfl, _⟩ := checked_some hnB
  refine ⟨?_, ?_⟩
  · show frame.width * frame.memoryFormat.nBytes * frame.height ≤
      (listResize _ _).length
    rw [listResize_length]
  · show frame.width * frame.memoryFormat.nBytes ≤
      frame.width * frame.memoryFormat.nBytes
    exact le_rfl

/-- The color-handling stage of `request_frame` preserves the invariant
when the in-place ICC transformation preserves the buffer length. -/
theorem colorStage_inv (icc : List ℕ → List ℕ) (hC hI : Bool)
    (fb r : Frame × List ℕ) (h : colorStage icc hC hI fb = .ok r)
    (hicc : ∀ l, (icc l).length = l.length) (hinv : FrameBufInv fb) :
    FrameBufInv r := by
  unfold colorStage at h
  split at h
  · injection h with h2; subst h2; exact hinv
  split at h
  · split at h
    · exact Except.noConfusion h
    rename_i q hq
    injection h with h2
    subst h2
    have hi := removeStrideIfNeeded_inv fb.2 fb.1 q hq
    refine ⟨?_, ?_⟩
    · show q.1.stride * q.1.height ≤ (icc q.2).length
      rw [hicc]
      exact hi.1
    · show q.1.width * q.1.memoryFormat.nBytes ≤ q.1.stride
      exact hi.2
  · injection h with h2; subst h2; exact hinv

/-- The memory-format conversion stage of `request_frame` preserves the
invariant. -/
theorem changeMemoryFormat_inv (fill : ℕ → ℕ) (buf : List ℕ)
    (frame : Frame) (t : MemoryFormat) (r : Frame × List ℕ)
    (h : changeMemoryFormat fill buf frame t = .ok r)
    (hinv : FrameBufInv (frame, buf)) : FrameBufInv r := by
  unfold changeMemoryFormat at h
  split at h
  · injection h with h2; subst h2; exact hinv
  split at h
  · exact Except.noConfusion h
  rename_i newStride hns
  split at h
  · exact Except.noConfusion h
  rename_i newTotal hnt
  injection h with h2
  subst h2
  unfold SafeMath.U32.smul at hns
  unfold SafeMath.Usize.smul at hnt
  obtain ⟨rfl, _⟩ := checked_some hns
  obtain ⟨rfl, _⟩ := checked_some hnt
  refine ⟨?_, ?_⟩
  · show frame.width * t.nBytes * frame.height ≤
      ((List.range (frame.height * (frame.width * t.nBytes))).map fill).length
    rw [List.length_map, List.length_range]
    exact Nat.le_of_eq (by ring)
  · show frame.width * t.nBytes ≤ frame.width * t.nBytes
    exact le_rfl

/-- **C1, counterexample.**  The claim asserts that the returned buffer
length *equals* `stride*height`.  But `request_frame` hands the caller
the whole mapped texture, and `validate_frame` only requires the texture
to be *at least* `n_bytes` long: a `1x1` `G8` frame with stride 1 over a
2-byte texture passes validation and is returned with both bytes, so
the length exceeds `stride*height = 1`. -/
theorem request_frame_buffer_cex :
    requestFrame id id false false Orientation.id false false
      (fun f => f = MemoryFormat.G8) ⟨1, 1, 1, .G8⟩ [5, 6] =
      .ok (⟨1, 1, 1, .G8⟩, [5, 6]) ∧
    ¬ ([5, 6] : List ℕ).length = 1 * 1 := by
  refine ⟨rfl, by decide⟩

/-- **C1** (amended).  Every frame–buffer pair a frame request returns
satisfies `len(bytes) ≥ stride*height` (not equality: the whole mapped
texture is returned, which validation only bounds from below) and
`stride ≥ width*bpp`, provided the ICC transformation is
length-preserving (it converts in place) and the incoming frame's
`height*bpp` fits in `u32` (otherwise the 90°/270° rotation stride
computation `(height * pixel_size) as u32` could truncate). -/
theorem request_frame_buffer_invariant (fill : ℕ → ℕ)
    (icc : List ℕ → List ℕ) (aT iE : Bool) (o : Orientation)
    (hC hI : Bool) (sel : MemoryFormatSelection.Selection) (frame : Frame)
    (texture : List ℕ) (r : Frame × List ℕ)
    (h : requestFrame fill icc aT iE o hC hI sel frame texture = .ok r)
    (hicc : ∀ l, (icc l).length = l.length)
    (hcap : frame.height * frame.memoryFormat.nBytes ≤ u32Max) :
    r.1.stride * r.1.height ≤ r.2.length ∧
    r.1.width * r.1.memoryFormat.nBytes ≤ r.1.stride := by
  unfold requestFrame at h
  split at h
  · exact Except.noConfusion h
  rename_i u hv
  obtain ⟨h1, h2⟩ := validateFrame_ok frame texture.length u hv
  have hinv0 : FrameBufInv (frame, texture) := ⟨h1, h2⟩
  have hinv1 : FrameBufInv
      (if aT then applyExifOrientation texture frame iE o
       else (frame, texture)) := by
    split
    · exact applyExifOrientation_inv texture frame iE o hinv0 hcap
    · exact hinv0
  split at h
  · exact Except.noConfusion h
  rename_i q hq
  have hinv2 : FrameBufInv q := colorStage_inv icc hC hI _ q hq hicc hinv1
  split at h
  · injection h with h3
    subst h3
    exact hinv2
  · rename_i t ht
    exact changeMemoryFormat_inv fill q.2 q.1 t r h hinv2

/-- Concrete instance of the amended C1 theorem: the `1x1` `G8` frame
over a 2-byte texture is returned with a buffer of 2 bytes, satisfying
both inequalities (and refuting the claimed equality). -/
theorem request_frame_buffer_invariant_witness :
    requestFrame id id false false Orientation.id false false
      (fun f => f = MemoryFormat.G8) ⟨1, 1, 1, .G8⟩ [5, 6] =
      .ok (⟨1, 1, 1, .G8⟩, [5, 6]) ∧
    (1 * 1 ≤ 2 ∧ 1 * 1 ≤ 1) :=
  ⟨rfl,
   request_frame_buffer_invariant id id false false Orientation.id false
     false (fun f => f = MemoryFormat.G8) ⟨1, 1, 1, .G8⟩ [5, 6]
     (⟨1, 1, 1, .G8⟩, [5, 6]) rfl (fun _ => rfl) (by decide)⟩

end Glycin
